import Mathlib

/-
Verification development for the crossword builder/solver (src/src/App.tsx).

The constraint-solving core is embedded shallowly:
  * a JS `Cell {blocked, ch?}` becomes `Cell` with `ch : Option Char`
    (the data model restricts `ch` to at most one character);
  * a JS string (word) becomes `List Char`, so `w[i]` becomes `w[i]?`
    (`undefined` becomes `none`, and the JS comparison `w[i] !== ch`
    is `none`-aware equality of `Option Char`);
  * the grid is `List (List Cell)`; cell access `g[r][c]` becomes `cellAt`,
    which pads out-of-range access with a blocked cell.  The JS code indexes
    every row by `g[0].length`, so for rectangular grids (the documented
    invariant) every access the model makes is in bounds and `cellAt`
    coincides with the JS access;
  * the insertion-ordered JS `Map` used by `buildCrosses` (keys are the
    strings `"r,c"`, which decode injectively to pairs) and by the
    length index `byLen` become association lists built by `upsert`
    folds, preserving the same key order and per-key value order;
  * the mutable `assignment` record / `used` set of the backtracking search
    become an association list and a list threaded through a pure
    recursion; the un-do on backtrack is implicit in the pure recursion;
  * the unbounded JS recursion of `backtrack` becomes a fuel recursion;
    `solveJS` passes `slots.length + 1` fuel, which the completeness proof
    shows is enough (each recursive call assigns one more slot);
  * the external Tau-Prolog engine of `solveFor` is opaque to the program;
    it is modelled as an input describing which of the code's observable
    branches it takes (unavailable / answer / no answer / query error /
    consult error); `solveFor` itself is the code's dispatch logic.
-/

namespace Crossword

/-- A grid cell: `{ blocked: boolean; ch?: string }` from the source. -/
structure Cell where
  blocked : Bool
  ch : Option Char
deriving DecidableEq, Repr

/-- Slot direction, `"H" | "V"` in the source. -/
inductive Dir where
  | H
  | V
deriving DecidableEq, Repr

/-- `type Slot = { id; r; c; len; dir }` from the source. -/
structure Slot where
  id : Nat
  r : Nat
  c : Nat
  len : Nat
  dir : Dir
deriving DecidableEq, Repr

/-- A crossing constraint `{ a; ia; b; ib }` from `buildCrosses`. -/
structure Cross where
  a : Nat
  ia : Nat
  b : Nat
  ib : Nat
deriving DecidableEq, Repr

/-- A word: a JS string, modelled as its character list. -/
abbrev Word := List Char

/-- The grid: `Cell[][]`. -/
abbrev Grid := List (List Cell)

/-- The solver's assignment `Record<number, string>`, as an association list. -/
abbrev Asg := List (Nat × Word)

/-- Default cell used for out-of-range access (never reached on the
rectangular grids the claims are about). -/
def blankCell : Cell := ⟨true, none⟩

/-- `g[r][c]`. -/
def cellAt (g : Grid) (r c : Nat) : Cell := (g.getD r []).getD c blankCell

/-- `g[0].length`: the column bound the source uses for every row. -/
def gridCols (g : Grid) : Nat := (g.headD []).length

/-- The grid is a rectangle, every row as long as row 0 (the documented
`Grid` invariant; the source relies on it by indexing with `g[0].length`). -/
def Rectangular (g : Grid) : Prop := ∀ row ∈ g, row.length = gridCols g

instance : DecidablePred Rectangular := fun g =>
  inferInstanceAs (Decidable (∀ row ∈ g, row.length = gridCols g))

/-- Row `r` as scanned by `computeSlots`: columns `0 .. g[0].length - 1`. -/
def hline (g : Grid) (r : Nat) : List Cell :=
  (List.range (gridCols g)).map (fun c => cellAt g r c)

/-- Column `c` as scanned by `computeSlots`: rows `0 .. g.length - 1`. -/
def vline (g : Grid) (c : Nat) : List Cell :=
  (List.range g.length).map (fun r => cellAt g r c)

/-- The run scanner of `computeSlots`, one line at a time.  `i` is the index
of the head of the remaining line, `cur` the open run in progress
(start, length so far).  Emits every maximal open run as (start, length);
`computeSlots` keeps those of length ≥ 2, exactly as the JS `while` loops
push runs with `len >= 2`. -/
def openRunsAux : List Cell → Nat → Option (Nat × Nat) → List (Nat × Nat)
  | [], _, none => []
  | [], _, some run => [run]
  | cell :: rest, i, none =>
      if cell.blocked then openRunsAux rest (i + 1) none
      else openRunsAux rest (i + 1) (some (i, 1))
  | cell :: rest, i, some (st, n) =>
      if cell.blocked then (st, n) :: openRunsAux rest (i + 1) none
      else openRunsAux rest (i + 1) (some (st, n + 1))

/-- All maximal open runs of a line. -/
def openRuns (line : List Cell) : List (Nat × Nat) := openRunsAux line 0 none

/-- The horizontal slot data found by `computeSlots`' first loop, one row at
a time: `(r, start, len, H)` for each open run of length ≥ 2. -/
def hrawOf (g : Grid) : List (Nat × Nat × Nat × Dir) :=
  (List.range g.length).flatMap (fun r =>
    ((openRuns (hline g r)).filter (fun p => 2 ≤ p.2)).map
      (fun p => (r, p.1, p.2, Dir.H)))

/-- The vertical slot data found by `computeSlots`' second loop. -/
def vrawOf (g : Grid) : List (Nat × Nat × Nat × Dir) :=
  (List.range (gridCols g)).flatMap (fun c =>
    ((openRuns (vline g c)).filter (fun p => 2 ≤ p.2)).map
      (fun p => (p.1, c, p.2, Dir.V)))

/-- All slot data in discovery order: horizontal first, then vertical. -/
def rawSlots (g : Grid) : List (Nat × Nat × Nat × Dir) := hrawOf g ++ vrawOf g

/-- Attach the discovery index as the slot id (`id++` at each push). -/
def mkSlot (q : Nat × Nat × Nat × Nat × Dir) : Slot :=
  ⟨q.1, q.2.1, q.2.2.1, q.2.2.2.1, q.2.2.2.2⟩

/-- `computeSlots` (source lines 163-189): horizontal slots row by row, then
vertical slots column by column, ids `0, 1, 2, ...` in discovery order. -/
def computeSlots (g : Grid) : List Slot := (rawSlots g).enum.map mkSlot

/-- The grid coordinate of offset `k` inside slot `s`
(`rr = dir==="H" ? r : r+k`, `cc = dir==="H" ? c+k : c`). -/
def coordOf (s : Slot) (k : Nat) : Nat × Nat :=
  match s.dir with
  | Dir.H => (s.r, s.c + k)
  | Dir.V => (s.r + k, s.c)

/-- Insert into the coordinate map of `buildCrosses`: append to the entry of
`key` if present, else add a new entry at the end (JS `Map` insertion
order). -/
def upsert (m : List ((Nat × Nat) × List (Nat × Nat))) (key : Nat × Nat)
    (v : Nat × Nat) : List ((Nat × Nat) × List (Nat × Nat)) :=
  match m with
  | [] => [(key, [v])]
  | (k, l) :: rest =>
      if k = key then (k, l ++ [v]) :: rest else (k, l) :: upsert rest key v

/-- The `mark` map of `buildCrosses`: coordinate ↦ list of (slot id, offset)
touching it, in slot-then-offset order. -/
def markOf (slots : List Slot) : List ((Nat × Nat) × List (Nat × Nat)) :=
  slots.foldl
    (fun m s =>
      (List.range s.len).foldl (fun m' k => upsert m' (coordOf s k) (s.id, k)) m)
    []

/-- Ordered pairs `(i, j)` with `i < j` of one coordinate's touch list, as
emitted by the double loop of `buildCrosses`. -/
def pairsOf : List (Nat × Nat) → List Cross
  | [] => []
  | x :: rest => (rest.map (fun y => ⟨x.1, x.2, y.1, y.2⟩)) ++ pairsOf rest

/-- `buildCrosses` (source lines 192-214). -/
def buildCrosses (slots : List Slot) : List Cross :=
  (markOf slots).flatMap (fun e => if e.2.length < 2 then [] else pairsOf e.2)

/-- One step of building the `byLen` map of `solveJS`: append `w` to its
length bucket, creating the bucket at the end if absent. -/
def upsertLen (m : List (Nat × List Word)) (w : Word) : List (Nat × List Word) :=
  match m with
  | [] => [(w.length, [w])]
  | (len, ws) :: rest =>
      if len = w.length then (len, ws ++ [w]) :: rest
      else (len, ws) :: upsertLen rest w

/-- The `byLen` map of `solveJS` (source lines 224-228). -/
def buildByLen (wl : List Word) : List (Nat × List Word) := wl.foldl upsertLen []

/-- `byLen.get(len) ?? []`. -/
def getByLen (m : List (Nat × List Word)) (len : Nat) : List Word :=
  match m with
  | [] => []
  | (len', ws) :: rest => if len' = len then ws else getByLen rest len

/-- `used.has(w)` on the set of used words. -/
def wmem (l : List Word) (w : Word) : Bool := l.any (fun x => x = w)

/-- Is `u` an uppercase letter (`/[A-Z]/.test`)? -/
def isUpperAlpha (u : Char) : Bool := decide ('A' ≤ u ∧ u ≤ 'Z')

/-- The `fixed` map of `solveJS` (source lines 230-240): the pre-filled
letter at offset `k` of slot `s`, uppercased and kept only if a letter
(`ch && /[A-Z]/.test(ch)`).  The source only queries offsets `k < s.len`. -/
def fixedFor (g : Grid) (s : Slot) (k : Nat) : Option Char :=
  match (cellAt g (coordOf s k).1 (coordOf s k).2).ch with
  | none => none
  | some c0 =>
      let u := c0.toUpper
      if isUpperAlpha u then some u else none

/-- First-match association-list lookup, the JS record read `assignment[i]`. -/
def alookup : Asg → Nat → Option Word
  | [], _ => none
  | (i, w) :: rest, j => if i = j then some w else alookup rest j

/-- `assignment[i]` truthiness: assigned to a non-empty word. -/
def assigned (asg : Asg) (i : Nat) : Bool :=
  match alookup asg i with
  | none => false
  | some w => !w.isEmpty

/-- The `crossingMap` entry for slot id `i` (source lines 242-247): for every
cross touching `i`, the triple (other id, index in this word, index in the
other word), in cross-list order. -/
def crossRefs (crosses : List Cross) (i : Nat) : List (Nat × Nat × Nat) :=
  crosses.flatMap (fun c =>
    (if c.a = i then [(c.b, c.ia, c.ib)] else []) ++
    (if c.b = i then [(c.a, c.ib, c.ia)] else []))

/-- The pre-filled-letter filter of `domainFor`: for each offset `k < s.len`
holding a fixed letter, the word must carry that letter (`w[i] !== ch`
rejects). -/
def fixedOK (g : Grid) (s : Slot) (w : Word) : Bool :=
  (List.range s.len).all (fun k =>
    match fixedFor g s k with
    | some ch => w[k]? == some ch
    | none => true)

/-- The crossing filter of `domainFor`: against every already-assigned
crossing slot (`other` truthy), the two letters must agree
(`other[idxOther] !== w[idxThis]` rejects). -/
def crossOK (crosses : List Cross) (asg : Asg) (i : Nat) (w : Word) : Bool :=
  (crossRefs crosses i).all (fun t =>
    match alookup asg t.1 with
    | some other => other.isEmpty || (w[t.2.1]? == other[t.2.2]?)
    | none => true)

/-- `domainFor` (source lines 252-263): the length bucket minus used words,
filtered by fixed letters and assigned crossing slots. -/
def domainFor (g : Grid) (wl : List Word) (crosses : List Cross) (asg : Asg)
    (used : List Word) (s : Slot) : List Word :=
  ((getByLen (buildByLen wl) s.len).filter (fun w => !wmem used w)).filter
    (fun w => fixedOK g s w && crossOK crosses asg s.id w)

/-- The best-so-far update of `pickNext`: keep the incumbent unless the new
domain is strictly smaller (`size < best.size`). -/
def bestUpd (s : Slot) (size : Nat) : Option (Slot × Nat) → Option (Slot × Nat)
  | none => some (s, size)
  | some bp => if size < bp.2 then some (s, size) else some bp

/-- The scan loop of `pickNext` (source lines 265-275), carrying the best
(slot, domain size) seen so far; returns immediately on an empty domain.
(The JS updates `best` before testing `size === 0`; since the update is
discarded on that early return, testing first is the same function.) -/
def pickGo (g : Grid) (wl : List Word) (crosses : List Cross) (asg : Asg)
    (used : List Word) : List Slot → Option (Slot × Nat) → Option Slot
  | [], best => best.map Prod.fst
  | s :: rest, best =>
      if assigned asg s.id then pickGo g wl crosses asg used rest best
      else if (domainFor g wl crosses asg used s).length = 0 then some s
      else pickGo g wl crosses asg used rest
        (bestUpd s (domainFor g wl crosses asg used s).length best)

/-- `pickNext`: MRV slot selection with empty-domain short-circuit. -/
def pickNext (g : Grid) (wl : List Word) (crosses : List Cross)
    (slots : List Slot) (asg : Asg) (used : List Word) : Option Slot :=
  pickGo g wl crosses asg used slots none

/-- `backtrack` (source lines 277-288), on fuel: pick a slot, try its domain
in order, recurse with the extended assignment/used set; the pure recursion
plays the role of the JS assign/undo mutation. -/
def backtrack (g : Grid) (wl : List Word) (slots : List Slot)
    (crosses : List Cross) : Nat → Asg → List Word → Option Asg
  | 0, _, _ => none
  | fuel + 1, asg, used =>
      match pickNext g wl crosses slots asg used with
      | none => some asg
      | some s =>
          (domainFor g wl crosses asg used s).foldr
            (fun w acc =>
              match backtrack g wl slots crosses fuel ((s.id, w) :: asg)
                  (w :: used) with
              | some r => some r
              | none => acc)
            none

/-- `solveJS` (source lines 219-291).  `slots.length + 1` fuel is enough for
the bounded JS recursion: every level assigns one previously unassigned
slot. -/
def solveJS (g : Grid) (wl : List Word) : Option Asg :=
  let slots := computeSlots g
  if slots = [] then none
  else backtrack g wl slots (buildCrosses slots) (slots.length + 1) [] []

/-! ### Word-list normalization (the `words` memo, source lines 157-160) -/

/-- Is `c` JS whitespace (the characters `String.prototype.trim` strips that
can appear in a word-list entry)? -/
def isWsChar (c : Char) : Bool :=
  decide (c = ' ' ∨ c = '\t' ∨ c = '\n' ∨ c = '\r' ∨ c = '\x0b' ∨ c = '\x0c')

/-- `.toUpperCase().replace(/[^A-Z]/g, "")`. -/
def stripUpper (w : Word) : Word := (w.map Char.toUpper).filter isUpperAlpha

/-- `.trim()`. -/
def trimChars (w : Word) : Word :=
  ((w.dropWhile isWsChar).reverse.dropWhile isWsChar).reverse

/-- One raw entry through `w.toUpperCase().replace(/[^A-Z]/g, "").trim()`. -/
def normalizeWord (w : Word) : Word := trimChars (stripUpper w)

/-- The normalized word list: map the normalization over the raw entries and
drop those shorter than 2 (`.filter(w => w.length >= 2)`). -/
def wordsOf (raw : List Word) : List Word :=
  (raw.map normalizeWord).filter (fun w => 2 ≤ w.length)

/-! ### The engine dispatch `solveFor` (source lines 296-341)

The Tau-Prolog evaluator is an external capability loaded from a CDN; it is
not part of this repository's source.  The dispatch observes exactly five
behaviours of it, which we take as an opaque input:

  * `unavailable` — `ensureTauProlog()` resolved `null` (script failed to
    load or did not attach the global);
  * `available (answer m)` — consult and query succeeded and the answer
    carried an `Assigns` list, decoded by the walk over `./2` terms into the
    mapping `m`;
  * `available noAnswer` — the query ran but produced no answer (or no
    `Assigns` binding): `resolve(null)`;
  * `available queryError` — the query's `error` callback fired:
    `resolve(null)`;
  * `available consultError` — `session.consult` rejected its promise, so
    the exception escapes `solveFor` (caught only by the UI's `try`).
-/

/-- Observable behaviour of the external Prolog engine on one problem. -/
inductive EngineAnswer where
  | answer : Asg → EngineAnswer
  | noAnswer
  | queryError
  | consultError
deriving DecidableEq, Repr

/-- Engine availability: `ensureTauProlog()` yields `null` or the engine. -/
inductive EngineStatus where
  | unavailable
  | available : EngineAnswer → EngineStatus
deriving DecidableEq, Repr

/-- What a call of `solveFor` does: return a value, or let an exception
escape to the caller. -/
inductive SolveOutcome where
  | ok : Option Asg → SolveOutcome
  | threw
deriving DecidableEq, Repr

/-- `solveFor` (source lines 296-341): slots first, then Prolog if available,
else the JS engine; a query error or missing answer resolves `null`; a
consult failure escapes as an exception. -/
def solveFor (eng : EngineStatus) (g : Grid) (wl : List Word) : SolveOutcome :=
  if computeSlots g = [] then SolveOutcome.ok none
  else
    match eng with
    | EngineStatus.unavailable => SolveOutcome.ok (solveJS g wl)
    | EngineStatus.available ans =>
        match ans with
        | EngineAnswer.consultError => SolveOutcome.threw
        | EngineAnswer.queryError => SolveOutcome.ok none
        | EngineAnswer.noAnswer => SolveOutcome.ok none
        | EngineAnswer.answer m => SolveOutcome.ok (some m)

/-! ### Solution projection (the fill loop of `onSolve`, source lines 355-366) -/

/-- Replace the element at index `i` (identity when out of range; the
projection only writes in-range coordinates on rectangular grids). -/
def updateAt : List α → Nat → (α → α) → List α
  | [], _, _ => []
  | x :: xs, 0, f => f x :: xs
  | x :: xs, n + 1, f => x :: updateAt xs n f

/-- `filled[r][c].ch = ch` (all other cell fields kept). -/
def setCh (g : Grid) (r c : Nat) (ch : Option Char) : Grid :=
  updateAt g r (fun row => updateAt row c (fun cell => { cell with ch := ch }))

/-- Write word `w` into slot `s`: `filled[rr][cc].ch = w[k]` for each
`k < s.len`. -/
def writeWord (acc : Grid) (s : Slot) (w : Word) : Grid :=
  (List.range s.len).foldl
    (fun a k => setCh a (coordOf s k).1 (coordOf s k).2 w[k]?) acc

/-- The projection of a mapping onto a fresh copy of the grid
(`const filled = grid.map(row => row.map(c => ({...c})))` followed by the
slot loop; `if (!w) continue` skips slots without a truthy word). -/
def project (g : Grid) (m : Asg) : Grid :=
  (computeSlots g).foldl
    (fun acc s =>
      match alookup m s.id with
      | none => acc
      | some w => if w.isEmpty then acc else writeWord acc s w)
    g

/-! ### Specification-side predicates

These follow the spec's wording (maximal runs, the solution invariant), to be
compared with the source-derived functions above. -/

/-- The spec's horizontal slot at `(r, c)` of length `n`: a maximal
contiguous run of non-blocked cells of length ≥ 2 along row `r`. -/
def specHRun (g : Grid) (r c n : Nat) : Prop :=
  2 ≤ n ∧ r < g.length ∧ c + n ≤ gridCols g ∧
  (∀ k < n, (cellAt g r (c + k)).blocked = false) ∧
  (c = 0 ∨ (cellAt g r (c - 1)).blocked = true) ∧
  (c + n = gridCols g ∨ (cellAt g r (c + n)).blocked = true)

/-- The spec's vertical slot at `(r, c)` of length `n`. -/
def specVRun (g : Grid) (r c n : Nat) : Prop :=
  2 ≤ n ∧ c < gridCols g ∧ r + n ≤ g.length ∧
  (∀ k < n, (cellAt g (r + k) c).blocked = false) ∧
  (r = 0 ∨ (cellAt g (r - 1) c).blocked = true) ∧
  (r + n = g.length ∨ (cellAt g (r + n) c).blocked = true)

/-- Slot `s` covers the grid coordinate `p`. -/
def covers (s : Slot) (p : Nat × Nat) : Prop := ∃ k < s.len, coordOf s k = p

/-- The completion invariant (spec section 3 and testable property 1): every
slot carries exactly one word from the list, of its length, matching its
pre-filled letters; assigned words are pairwise distinct; every crossing
constraint is satisfied (with both constrained offsets in range). -/
def ValidMapping (g : Grid) (wl : List Word) (m : Asg) : Prop :=
  (∀ s ∈ computeSlots g, ∃ w, alookup m s.id = some w ∧ w ∈ wl ∧
      w.length = s.len ∧
      ∀ k < s.len, ∀ ch, fixedFor g s k = some ch → w[k]? = some ch) ∧
  (∀ s ∈ computeSlots g, ∀ t ∈ computeSlots g, s.id ≠ t.id →
      ∀ ws wt, alookup m s.id = some ws → alookup m t.id = some wt → ws ≠ wt) ∧
  (∀ c ∈ buildCrosses (computeSlots g), ∃ wa wb ch,
      alookup m c.a = some wa ∧ alookup m c.b = some wb ∧
      wa[c.ia]? = some ch ∧ wb[c.ib]? = some ch)

/-- A complete satisfying assignment of list words to the slots of `g`
(the notion `solveJS` is sound and complete for). -/
def IsSolution (g : Grid) (wl : List Word) (σ : Nat → Word) : Prop :=
  (∀ s ∈ computeSlots g, σ s.id ∈ wl ∧ (σ s.id).length = s.len ∧
      ∀ k < s.len, ∀ ch, fixedFor g s k = some ch → (σ s.id)[k]? = some ch) ∧
  (∀ s ∈ computeSlots g, ∀ t ∈ computeSlots g, s.id ≠ t.id →
      σ s.id ≠ σ t.id) ∧
  (∀ c ∈ buildCrosses (computeSlots g), (σ c.a)[c.ia]? = (σ c.b)[c.ib]?)

/-! ### Small utilities: lookups, membership, list updates -/

theorem alookup_cons (i : Nat) (w : Word) (asg : Asg) (j : Nat) :
    alookup ((i, w) :: asg) j = if i = j then some w else alookup asg j := rfl

theorem alookup_mem {asg : Asg} {i : Nat} {w : Word}
    (h : alookup asg i = some w) : (i, w) ∈ asg := by
  induction asg with
  | nil => simp [alookup] at h
  | cons p rest ih =>
      obtain ⟨j, v⟩ := p
      rw [alookup_cons] at h
      by_cases hj : j = i
      · subst hj
        simp at h
        simp [h]
      · simp [hj] at h
        exact List.mem_cons_of_mem _ (ih h)

theorem alookup_eq_none {asg : Asg} {i : Nat} :
    alookup asg i = none ↔ ∀ w, (i, w) ∉ asg := by
  induction asg with
  | nil => simp [alookup]
  | cons p rest ih =>
      obtain ⟨j, v⟩ := p
      rw [alookup_cons]
      by_cases hj : j = i
      · subst hj
        constructor
        · intro h
          simp at h
        · intro h
          exact absurd (List.mem_cons_self _ _) (h v)
      · simp only [if_neg hj, ih]
        constructor
        · intro h w hw
          rcases List.mem_cons.mp hw with h1 | h1
          · exact hj (congrArg Prod.fst h1).symm
          · exact h w h1
        · intro h w hw
          exact h w (List.mem_cons_of_mem _ hw)

theorem mem_alookup {asg : Asg} {i : Nat} {w : Word}
    (hnd : (asg.map Prod.fst).Nodup) (h : (i, w) ∈ asg) :
    alookup asg i = some w := by
  induction asg with
  | nil => simp at h
  | cons p rest ih =>
      obtain ⟨j, v⟩ := p
      simp only [List.map_cons, List.nodup_cons] at hnd
      rw [alookup_cons]
      rcases List.mem_cons.mp h with h1 | h1
      · obtain ⟨h2, h3⟩ := Prod.mk.injEq .. ▸ h1.symm
        simp [h2, h3]
      · have hji : j ≠ i := by
          intro he
          subst he
          exact hnd.1 (List.mem_map.mpr ⟨(j, w), h1, rfl⟩)
        simp [hji, ih hnd.2 h1]

theorem wmem_iff (l : List Word) (w : Word) : wmem l w = true ↔ w ∈ l := by
  simp only [wmem, List.any_eq_true, decide_eq_true_eq]
  constructor
  · rintro ⟨x, hx, rfl⟩
    exact hx
  · intro h
    exact ⟨w, h, rfl⟩

theorem updateAt_length (l : List α) (i : Nat) (f : α → α) :
    (updateAt l i f).length = l.length := by
  induction l generalizing i with
  | nil => rfl
  | cons x xs ih =>
      cases i with
      | zero => rfl
      | succ n => simpa [updateAt] using ih n

theorem getElem?_updateAt (l : List α) (i : Nat) (f : α → α) (j : Nat) :
    (updateAt l i f)[j]? = if i = j then (l[j]?).map f else l[j]? := by
  induction l generalizing i j with
  | nil => simp [updateAt]
  | cons x xs ih =>
      cases i with
      | zero =>
          cases j with
          | zero => simp [updateAt]
          | succ m => simp [updateAt]
      | succ n =>
          cases j with
          | zero => simp [updateAt]
          | succ m =>
              simp only [updateAt, List.getElem?_cons_succ, ih n m]
              by_cases h : n = m
              · simp [h]
              · simp [h, fun hc => h (Nat.succ_injective hc)]

/-! ### The length index: `byLen` lookup is the order-preserving length filter -/

theorem getByLen_upsertLen (m : List (Nat × List Word)) (w : Word) (L : Nat) :
    getByLen (upsertLen m w) L =
      if w.length = L then getByLen m L ++ [w] else getByLen m L := by
  induction m with
  | nil =>
      by_cases h : w.length = L <;> simp [upsertLen, getByLen, h]
  | cons p rest ih =>
      obtain ⟨len, ws⟩ := p
      by_cases hl : len = w.length
      · by_cases hL : len = L
        · have hwL : w.length = L := hl.symm.trans hL
          simp [upsertLen, getByLen, hl, hL, hwL]
        · have hwL : ¬ w.length = L := fun h => hL (hl.trans h)
          simp [upsertLen, getByLen, hl, hL, hwL]
      · by_cases hL : len = L
        · have hwL : ¬ w.length = L := fun h => hl (hL.trans h.symm)
          have hl' : ¬ L = w.length := fun h => hl (hL.trans h)
          simp [upsertLen, getByLen, hl, hL, hwL, hl']
        · simp [upsertLen, getByLen, hl, hL, ih]

theorem getByLen_foldl (wl : List Word) (m : List (Nat × List Word)) (L : Nat) :
    getByLen (wl.foldl upsertLen m) L =
      getByLen m L ++ wl.filter (fun w => w.length = L) := by
  induction wl generalizing m with
  | nil => simp
  | cons w wl ih =>
      simp only [List.foldl_cons, ih, getByLen_upsertLen, List.filter_cons]
      by_cases h : w.length = L
      · simp [h]
      · simp [h]

theorem getByLen_buildByLen (wl : List Word) (L : Nat) :
    getByLen (buildByLen wl) L = wl.filter (fun w => w.length = L) := by
  simpa [buildByLen, getByLen] using getByLen_foldl wl [] L

/-! ### Characterizing the run scanner -/

/-- `(st, n)` is a maximal open run of the line `l`: `n` open cells starting
at `st`, delimited on the left by the line start or a blocked cell and on
the right by the line end or a blocked cell. -/
def lineRun (l : List Cell) (st n : Nat) : Prop :=
  1 ≤ n ∧ (∀ k < n, ∃ cell, l[st + k]? = some cell ∧ cell.blocked = false) ∧
  (st = 0 ∨ ∃ cell, l[st - 1]? = some cell ∧ cell.blocked = true) ∧
  (l[st + n]? = none ∨ ∃ cell, l[st + n]? = some cell ∧ cell.blocked = true)

theorem lineRun_n_unique {l : List Cell} {st n n' : Nat}
    (h : lineRun l st n) (h' : lineRun l st n') : n = n' := by
  obtain ⟨-, hin, -, hr⟩ := h
  obtain ⟨-, hin', -, hr'⟩ := h'
  rcases Nat.lt_trichotomy n n' with hlt | heq | hlt
  · obtain ⟨cell, hc, hb⟩ := hin' n hlt
    rcases hr with hr | ⟨cell', hc', hb'⟩
    · rw [hr] at hc
      exact absurd hc (by simp)
    · rw [hc] at hc'
      cases hc'
      rw [hb] at hb'
      exact absurd hb' (by simp)
  · exact heq
  · obtain ⟨cell, hc, hb⟩ := hin n' hlt
    rcases hr' with hr' | ⟨cell', hc', hb'⟩
    · rw [hr'] at hc
      exact absurd hc (by simp)
    · rw [hc] at hc'
      cases hc'
      rw [hb] at hb'
      exact absurd hb' (by simp)

/-- Scanner-state invariant: in `none` state the previous cell (if any) is
blocked; in `some (st₀, n₀)` state the current run holds `n₀` ≥ 1 open
cells from `st₀` up to the scan position, with a proper left delimiter. -/
def accInv (l : List Cell) (i : Nat) : Option (Nat × Nat) → Prop
  | none => i = 0 ∨ ∃ cell, l[i - 1]? = some cell ∧ cell.blocked = true
  | some (st₀, n₀) =>
      st₀ + n₀ = i ∧ 1 ≤ n₀ ∧
      (∀ k < n₀, ∃ cell, l[st₀ + k]? = some cell ∧ cell.blocked = false) ∧
      (st₀ = 0 ∨ ∃ cell, l[st₀ - 1]? = some cell ∧ cell.blocked = true)

/-- Which run starts the scanner can still emit from a given state. -/
def accOK (i st : Nat) : Option (Nat × Nat) → Prop
  | none => i ≤ st
  | some (st₀, _) => st = st₀ ∨ i ≤ st

theorem openRunsAux_mem (rest : List Cell) :
    ∀ (i : Nat) (l : List Cell) (acc : Option (Nat × Nat)),
      (∀ j, rest[j]? = l[i + j]?) → accInv l i acc →
      ∀ st n, ((st, n) ∈ openRunsAux rest i acc ↔
        (accOK i st acc ∧ lineRun l st n)) := by
  induction rest with
  | nil =>
      intro i l acc hlink hinv st n
      have hnone : ∀ j, i ≤ j → l[j]? = none := by
        intro j hj
        have := hlink (j - i)
        rw [Nat.add_sub_cancel' hj] at this
        rw [← this]
        simp
      match acc with
      | none =>
          simp only [openRunsAux, List.not_mem_nil, false_iff]
          rintro ⟨hok, h1, hin, -, -⟩
          obtain ⟨cell, hc, -⟩ := hin 0 h1
          rw [Nat.add_zero, hnone st hok] at hc
          exact absurd hc (by simp)
      | some (st₀, n₀) =>
          obtain ⟨hst, hn₀, hopen, hleft⟩ := hinv
          have hrun₀ : lineRun l st₀ n₀ :=
            ⟨hn₀, hopen, hleft, Or.inl (by rw [hst]; exact hnone i le_rfl)⟩
          simp only [openRunsAux, List.mem_singleton, Prod.mk.injEq]
          constructor
          · rintro ⟨rfl, rfl⟩
            exact ⟨Or.inl rfl, hrun₀⟩
          · rintro ⟨hok, hrun⟩
            rcases hok with rfl | hge
            · exact ⟨rfl, lineRun_n_unique hrun hrun₀⟩
            · obtain ⟨cell, hc, -⟩ := hrun.2.1 0 hrun.1
              rw [Nat.add_zero, hnone st hge] at hc
              exact absurd hc (by simp)
  | cons cell rest' ih =>
      intro i l acc hlink hinv st n
      have hcell : l[i]? = some cell := by
        have := hlink 0
        simpa using this.symm
      have hlink' : ∀ j, rest'[j]? = l[(i + 1) + j]? := by
        intro j
        have h1 : (cell :: rest')[j + 1]? = l[i + (j + 1)]? := hlink (j + 1)
        rw [List.getElem?_cons_succ] at h1
        rw [h1]
        congr 1
        omega
      -- no maximal run can start just after an open cell
      have no_start_after_open :
          ∀ st', 1 ≤ st' → (∀ cl, l[st' - 1]? = some cl → cl.blocked = false) →
            ¬ lineRun l st' n := by
        intro st' h1 hopenprev hrun
        obtain ⟨-, -, hl, -⟩ := hrun
        rcases hl with rfl | ⟨cl, hc, hb⟩
        · exact absurd h1 (by simp)
        · rw [hopenprev cl hc] at hb
          exact absurd hb (by simp)
      match acc with
      | none =>
          cases hb : cell.blocked with
          | true =>
              have hinv' : accInv l (i + 1) none :=
                Or.inr ⟨cell, by simpa using hcell, hb⟩
              rw [show openRunsAux (cell :: rest') i none =
                  openRunsAux rest' (i + 1) none from by
                simp [openRunsAux, hb]]
              rw [ih (i + 1) l none hlink' hinv' st n]
              simp only [accOK]
              constructor
              · rintro ⟨hge, hrun⟩
                exact ⟨Nat.le_of_succ_le hge, hrun⟩
              · rintro ⟨hge, hrun⟩
                rcases Nat.lt_or_ge i st with hlt | hle
                · exact ⟨hlt, hrun⟩
                · have hsti : st = i := Nat.le_antisymm hle hge
                  subst hsti
                  obtain ⟨cl, hc, hbl⟩ := hrun.2.1 0 hrun.1
                  rw [Nat.add_zero, hcell] at hc
                  cases hc
                  rw [hb] at hbl
                  exact absurd hbl (by simp)
          | false =>
              have hinv' : accInv l (i + 1) (some (i, 1)) := by
                refine ⟨rfl, le_rfl, ?_, hinv⟩
                intro k hk
                interval_cases k
                exact ⟨cell, by simpa using hcell, hb⟩
              rw [show openRunsAux (cell :: rest') i none =
                  openRunsAux rest' (i + 1) (some (i, 1)) from by
                simp [openRunsAux, hb]]
              rw [ih (i + 1) l (some (i, 1)) hlink' hinv' st n]
              simp only [accOK]
              constructor
              · rintro ⟨hok, hrun⟩
                rcases hok with rfl | hge
                · exact ⟨le_rfl, hrun⟩
                · exact ⟨Nat.le_of_succ_le hge, hrun⟩
              · rintro ⟨hge, hrun⟩
                rcases Nat.lt_or_ge i st with hlt | hle
                · exact ⟨Or.inr hlt, hrun⟩
                · exact ⟨Or.inl (Nat.le_antisymm hle hge), hrun⟩
      | some (st₀, n₀) =>
          obtain ⟨hst, hn₀, hopen, hleft⟩ := hinv
          cases hb : cell.blocked with
          | true =>
              have hrun₀ : lineRun l st₀ n₀ :=
                ⟨hn₀, hopen, hleft, Or.inr ⟨cell, by rw [hst]; exact hcell, hb⟩⟩
              have hinv' : accInv l (i + 1) none :=
                Or.inr ⟨cell, by simpa using hcell, hb⟩
              rw [show openRunsAux (cell :: rest') i (some (st₀, n₀)) =
                  (st₀, n₀) :: openRunsAux rest' (i + 1) none from by
                simp [openRunsAux, hb]]
              rw [List.mem_cons, Prod.mk.injEq,
                ih (i + 1) l none hlink' hinv' st n]
              simp only [accOK]
              constructor
              · rintro (⟨rfl, rfl⟩ | ⟨hge, hrun⟩)
                · exact ⟨Or.inl rfl, hrun₀⟩
                · exact ⟨Or.inr (Nat.le_of_succ_le hge), hrun⟩
              · rintro ⟨hok, hrun⟩
                rcases hok with rfl | hge
                · exact Or.inl ⟨rfl, lineRun_n_unique hrun hrun₀⟩
                · rcases Nat.lt_or_ge i st with hlt | hle
                  · exact Or.inr ⟨hlt, hrun⟩
                  · have hsti : st = i := Nat.le_antisymm hle hge
                    subst hsti
                    obtain ⟨cl, hc, hbl⟩ := hrun.2.1 0 hrun.1
                    rw [Nat.add_zero, hcell] at hc
                    cases hc
                    rw [hb] at hbl
                    exact absurd hbl (by simp)
          | false =>
              have hinv' : accInv l (i + 1) (some (st₀, n₀ + 1)) := by
                refine ⟨by omega, by omega, ?_, hleft⟩
                intro k hk
                rcases Nat.lt_or_ge k n₀ with hk' | hk'
                · exact hopen k hk'
                · have hkeq : k = n₀ := by omega
                  subst hkeq
                  exact ⟨cell, by rw [hst]; exact hcell, hb⟩
              rw [show openRunsAux (cell :: rest') i (some (st₀, n₀)) =
                  openRunsAux rest' (i + 1) (some (st₀, n₀ + 1)) from by
                simp [openRunsAux, hb]]
              rw [ih (i + 1) l (some (st₀, n₀ + 1)) hlink' hinv' st n]
              simp only [accOK]
              constructor
              · rintro ⟨hok, hrun⟩
                rcases hok with rfl | hge
                · exact ⟨Or.inl rfl, hrun⟩
                · exact ⟨Or.inr (Nat.le_of_succ_le hge), hrun⟩
              · rintro ⟨hok, hrun⟩
                rcases hok with rfl | hge
                · exact ⟨Or.inl rfl, hrun⟩
                · rcases Nat.lt_or_ge i st with hlt | hle
                  · exact ⟨Or.inr hlt, hrun⟩
                  · have hsti : st = i := Nat.le_antisymm hle hge
                    subst hsti
                    exfalso
                    refine no_start_after_open st (by omega) ?_ hrun
                    intro cl hc
                    obtain ⟨cl', hc', hbl'⟩ := hopen (n₀ - 1) (by omega)
                    have heq : st₀ + (n₀ - 1) = st - 1 := by omega
                    rw [heq] at hc'
                    rw [hc'] at hc
                    cases hc
                    exact hbl'

theorem openRuns_mem (line : List Cell) (st n : Nat) :
    (st, n) ∈ openRuns line ↔ lineRun line st n := by
  have := openRunsAux_mem line 0 line none (fun j => by simp)
    (Or.inl rfl) st n
  simpa [openRuns, accOK] using this

/-- Lower bound on the start of every run the scanner can still emit. -/
def accLB (i : Nat) : Option (Nat × Nat) → Nat
  | none => i
  | some (st₀, _) => st₀

theorem openRunsAux_start_ge (rest : List Cell) :
    ∀ (i : Nat) (acc : Option (Nat × Nat)), accLB i acc ≤ i →
      ∀ p ∈ openRunsAux rest i acc, accLB i acc ≤ p.1 := by
  induction rest with
  | nil =>
      intro i acc hacc p hp
      match acc with
      | none => simp [openRunsAux] at hp
      | some (st₀, n₀) =>
          simp only [openRunsAux, List.mem_singleton] at hp
          subst hp
          exact le_rfl
  | cons cell rest' ih =>
      intro i acc hacc p hp
      match acc with
      | none =>
          cases hb : cell.blocked with
          | true =>
              rw [show openRunsAux (cell :: rest') i none =
                  openRunsAux rest' (i + 1) none from by
                simp [openRunsAux, hb]] at hp
              have := ih (i + 1) none le_rfl p hp
              simp only [accLB] at this ⊢
              omega
          | false =>
              rw [show openRunsAux (cell :: rest') i none =
                  openRunsAux rest' (i + 1) (some (i, 1)) from by
                simp [openRunsAux, hb]] at hp
              have := ih (i + 1) (some (i, 1)) (by simp [accLB]) p hp
              simpa [accLB] using this
      | some (st₀, n₀) =>
          cases hb : cell.blocked with
          | true =>
              rw [show openRunsAux (cell :: rest') i (some (st₀, n₀)) =
                  (st₀, n₀) :: openRunsAux rest' (i + 1) none from by
                simp [openRunsAux, hb]] at hp
              simp only [accLB] at hacc ⊢
              rcases List.mem_cons.mp hp with rfl | hp'
              · exact le_rfl
              · have := ih (i + 1) none le_rfl p hp'
                simp only [accLB] at this
                omega
          | false =>
              rw [show openRunsAux (cell :: rest') i (some (st₀, n₀)) =
                  openRunsAux rest' (i + 1) (some (st₀, n₀ + 1)) from by
                simp [openRunsAux, hb]] at hp
              simp only [accLB] at hacc ⊢
              have := ih (i + 1) (some (st₀, n₀ + 1))
                (by simp only [accLB] at hacc ⊢; omega) p hp
              simpa [accLB] using this

theorem openRunsAux_pairwise (rest : List Cell) :
    ∀ (i : Nat) (acc : Option (Nat × Nat)), accLB i acc ≤ i →
      (openRunsAux rest i acc).Pairwise (fun p q => p.1 < q.1) := by
  induction rest with
  | nil =>
      intro i acc hacc
      match acc with
      | none => simp [openRunsAux]
      | some (st₀, n₀) => simp [openRunsAux]
  | cons cell rest' ih =>
      intro i acc hacc
      match acc with
      | none =>
          cases hb : cell.blocked with
          | true =>
              rw [show openRunsAux (cell :: rest') i none =
                  openRunsAux rest' (i + 1) none from by
                simp [openRunsAux, hb]]
              exact ih (i + 1) none le_rfl
          | false =>
              rw [show openRunsAux (cell :: rest') i none =
                  openRunsAux rest' (i + 1) (some (i, 1)) from by
                simp [openRunsAux, hb]]
              exact ih (i + 1) (some (i, 1)) (by simp [accLB])
      | some (st₀, n₀) =>
          cases hb : cell.blocked with
          | true =>
              rw [show openRunsAux (cell :: rest') i (some (st₀, n₀)) =
                  (st₀, n₀) :: openRunsAux rest' (i + 1) none from by
                simp [openRunsAux, hb]]
              refine List.Pairwise.cons ?_ (ih (i + 1) none le_rfl)
              intro p hp
              have := openRunsAux_start_ge rest' (i + 1) none le_rfl p hp
              simp only [accLB] at hacc this ⊢
              omega
          | false =>
              rw [show openRunsAux (cell :: rest') i (some (st₀, n₀)) =
                  openRunsAux rest' (i + 1) (some (st₀, n₀ + 1)) from by
                simp [openRunsAux, hb]]
              exact ih (i + 1) (some (st₀, n₀ + 1))
                (by simp only [accLB] at hacc ⊢; omega)

theorem openRuns_pairwise (line : List Cell) :
    (openRuns line).Pairwise (fun p q => p.1 < q.1) :=
  openRunsAux_pairwise line 0 none le_rfl

/-! ### From lines back to the grid -/

theorem getElem?_range_if (n i : Nat) :
    (List.range n)[i]? = if i < n then some i else none := by
  by_cases h : i < n
  · rw [List.getElem?_range h, if_pos h]
  · rw [if_neg h]
    simp only [List.getElem?_eq_none_iff, List.length_range]
    omega

theorem hline_getElem (g : Grid) (r j : Nat) :
    (hline g r)[j]? = if j < gridCols g then some (cellAt g r j) else none := by
  rw [hline, List.getElem?_map, getElem?_range_if]
  by_cases h : j < gridCols g <;> simp [h]

theorem vline_getElem (g : Grid) (c j : Nat) :
    (vline g c)[j]? = if j < g.length then some (cellAt g j c) else none := by
  rw [vline, List.getElem?_map, getElem?_range_if]
  by_cases h : j < g.length <;> simp [h]

theorem lineRun_hline_iff (g : Grid) (r c n : Nat) :
    lineRun (hline g r) c n ↔
      (1 ≤ n ∧ c + n ≤ gridCols g ∧
        (∀ k < n, (cellAt g r (c + k)).blocked = false) ∧
        (c = 0 ∨ (cellAt g r (c - 1)).blocked = true) ∧
        (c + n = gridCols g ∨ (cellAt g r (c + n)).blocked = true)) := by
  constructor
  · rintro ⟨h1, hin, hl, hr⟩
    have hcells : ∀ k < n, c + k < gridCols g ∧
        (cellAt g r (c + k)).blocked = false := by
      intro k hk
      obtain ⟨cell, hc, hb⟩ := hin k hk
      rw [hline_getElem] at hc
      by_cases hlt : c + k < gridCols g
      · rw [if_pos hlt] at hc
        cases hc
        exact ⟨hlt, hb⟩
      · rw [if_neg hlt] at hc
        exact absurd hc (by simp)
    have hbound : c + n ≤ gridCols g := by
      have := (hcells (n - 1) (by omega)).1
      omega
    refine ⟨h1, hbound, fun k hk => (hcells k hk).2, ?_, ?_⟩
    · rcases hl with rfl | ⟨cell, hc, hb⟩
      · exact Or.inl rfl
      · rw [hline_getElem] at hc
        by_cases hlt : c - 1 < gridCols g
        · rw [if_pos hlt] at hc
          cases hc
          exact Or.inr hb
        · rw [if_neg hlt] at hc
          exact absurd hc (by simp)
    · rcases hr with hr | ⟨cell, hc, hb⟩
      · rw [hline_getElem] at hr
        by_cases hlt : c + n < gridCols g
        · rw [if_pos hlt] at hr
          exact absurd hr (by simp)
        · exact Or.inl (by omega)
      · rw [hline_getElem] at hc
        by_cases hlt : c + n < gridCols g
        · rw [if_pos hlt] at hc
          cases hc
          exact Or.inr hb
        · rw [if_neg hlt] at hc
          exact absurd hc (by simp)
  · rintro ⟨h1, hbound, hin, hl, hr⟩
    refine ⟨h1, ?_, ?_, ?_⟩
    · intro k hk
      refine ⟨cellAt g r (c + k), ?_, hin k hk⟩
      rw [hline_getElem, if_pos (by omega)]
    · rcases hl with rfl | hb
      · exact Or.inl rfl
      · by_cases hc0 : c = 0
        · exact Or.inl hc0
        · refine Or.inr ⟨cellAt g r (c - 1), ?_, hb⟩
          rw [hline_getElem, if_pos (by omega)]
    · by_cases hlt : c + n < gridCols g
      · rcases hr with hr | hb
        · omega
        · refine Or.inr ⟨cellAt g r (c + n), ?_, hb⟩
          rw [hline_getElem, if_pos hlt]
      · refine Or.inl ?_
        rw [hline_getElem, if_neg hlt]

theorem lineRun_vline_iff (g : Grid) (r c n : Nat) :
    lineRun (vline g c) r n ↔
      (1 ≤ n ∧ r + n ≤ g.length ∧
        (∀ k < n, (cellAt g (r + k) c).blocked = false) ∧
        (r = 0 ∨ (cellAt g (r - 1) c).blocked = true) ∧
        (r + n = g.length ∨ (cellAt g (r + n) c).blocked = true)) := by
  constructor
  · rintro ⟨h1, hin, hl, hr⟩
    have hcells : ∀ k < n, r + k < g.length ∧
        (cellAt g (r + k) c).blocked = false := by
      intro k hk
      obtain ⟨cell, hc, hb⟩ := hin k hk
      rw [vline_getElem] at hc
      by_cases hlt : r + k < g.length
      · rw [if_pos hlt] at hc
        cases hc
        exact ⟨hlt, hb⟩
      · rw [if_neg hlt] at hc
        exact absurd hc (by simp)
    have hbound : r + n ≤ g.length := by
      have := (hcells (n - 1) (by omega)).1
      omega
    refine ⟨h1, hbound, fun k hk => (hcells k hk).2, ?_, ?_⟩
    · rcases hl with rfl | ⟨cell, hc, hb⟩
      · exact Or.inl rfl
      · rw [vline_getElem] at hc
        by_cases hlt : r - 1 < g.length
        · rw [if_pos hlt] at hc
          cases hc
          exact Or.inr hb
        · rw [if_neg hlt] at hc
          exact absurd hc (by simp)
    · rcases hr with hr | ⟨cell, hc, hb⟩
      · rw [vline_getElem] at hr
        by_cases hlt : r + n < g.length
        · rw [if_pos hlt] at hr
          exact absurd hr (by simp)
        · exact Or.inl (by omega)
      · rw [vline_getElem] at hc
        by_cases hlt : r + n < g.length
        · rw [if_pos hlt] at hc
          cases hc
          exact Or.inr hb
        · rw [if_neg hlt] at hc
          exact absurd hc (by simp)
  · rintro ⟨h1, hbound, hin, hl, hr⟩
    refine ⟨h1, ?_, ?_, ?_⟩
    · intro k hk
      refine ⟨cellAt g (r + k) c, ?_, hin k hk⟩
      rw [vline_getElem, if_pos (by omega)]
    · rcases hl with rfl | hb
      · exact Or.inl rfl
      · by_cases hr0 : r = 0
        · exact Or.inl hr0
        · refine Or.inr ⟨cellAt g (r - 1) c, ?_, hb⟩
          rw [vline_getElem, if_pos (by omega)]
    · by_cases hlt : r + n < g.length
      · rcases hr with hr | hb
        · omega
        · refine Or.inr ⟨cellAt g (r + n) c, ?_, hb⟩
          rw [vline_getElem, if_pos hlt]
      · refine Or.inl ?_
        rw [vline_getElem, if_neg hlt]

theorem specHRun_iff_lineRun (g : Grid) (r c n : Nat) :
    specHRun g r c n ↔ 2 ≤ n ∧ r < g.length ∧ lineRun (hline g r) c n := by
  rw [specHRun, lineRun_hline_iff]
  constructor
  · rintro ⟨h2, hrlt, hrest⟩
    exact ⟨h2, hrlt, by omega, hrest⟩
  · rintro ⟨h2, hrlt, -, hrest⟩
    exact ⟨h2, hrlt, hrest⟩

theorem specVRun_iff_lineRun (g : Grid) (r c n : Nat) :
    specVRun g r c n ↔ 2 ≤ n ∧ c < gridCols g ∧ lineRun (vline g c) r n := by
  rw [specVRun, lineRun_vline_iff]
  constructor
  · rintro ⟨h2, hclt, hrest⟩
    exact ⟨h2, hclt, by omega, hrest⟩
  · rintro ⟨h2, hclt, -, hrest⟩
    exact ⟨h2, hclt, hrest⟩

/-! ### Characterizing `computeSlots` -/

theorem mem_hrawOf (g : Grid) (q : Nat × Nat × Nat × Dir) :
    q ∈ hrawOf g ↔ ∃ r c n, q = (r, c, n, Dir.H) ∧ specHRun g r c n := by
  simp only [hrawOf, List.mem_flatMap, List.mem_map, List.mem_filter,
    List.mem_range]
  constructor
  · rintro ⟨r, hr, p, ⟨hmem, hlen⟩, rfl⟩
    refine ⟨r, p.1, p.2, rfl, ?_⟩
    rw [specHRun_iff_lineRun]
    exact ⟨by simpa using hlen, hr, (openRuns_mem _ _ _).mp hmem⟩
  · rintro ⟨r, c, n, rfl, hspec⟩
    rw [specHRun_iff_lineRun] at hspec
    obtain ⟨h2, hr, hrun⟩ := hspec
    exact ⟨r, hr, (c, n), ⟨(openRuns_mem _ _ _).mpr hrun, by simpa using h2⟩,
      rfl⟩

theorem mem_vrawOf (g : Grid) (q : Nat × Nat × Nat × Dir) :
    q ∈ vrawOf g ↔ ∃ r c n, q = (r, c, n, Dir.V) ∧ specVRun g r c n := by
  simp only [vrawOf, List.mem_flatMap, List.mem_map, List.mem_filter,
    List.mem_range]
  constructor
  · rintro ⟨c, hc, p, ⟨hmem, hlen⟩, rfl⟩
    refine ⟨p.1, c, p.2, rfl, ?_⟩
    rw [specVRun_iff_lineRun]
    exact ⟨by simpa using hlen, hc, (openRuns_mem _ _ _).mp hmem⟩
  · rintro ⟨r, c, n, rfl, hspec⟩
    rw [specVRun_iff_lineRun] at hspec
    obtain ⟨h2, hc, hrun⟩ := hspec
    exact ⟨c, hc, (r, n), ⟨(openRuns_mem _ _ _).mpr hrun, by simpa using h2⟩,
      rfl⟩

theorem mem_computeSlots_raw {g : Grid} {s : Slot} (h : s ∈ computeSlots g) :
    (s.r, s.c, s.len, s.dir) ∈ rawSlots g := by
  simp only [computeSlots, List.mem_map] at h
  obtain ⟨⟨i, q⟩, hmem, rfl⟩ := h
  have hq : q ∈ rawSlots g := by
    have h1 : (rawSlots g)[i]? = some q := List.mem_enum_iff_getElem?.mp hmem
    exact List.getElem?_mem h1
  simpa [mkSlot] using hq

theorem raw_mem_computeSlots {g : Grid} {q : Nat × Nat × Nat × Dir}
    (h : q ∈ rawSlots g) :
    ∃ i, (⟨i, q.1, q.2.1, q.2.2.1, q.2.2.2⟩ : Slot) ∈ computeSlots g := by
  obtain ⟨i, hv⟩ := List.get_of_mem h
  refine ⟨i.1, ?_⟩
  simp only [computeSlots, List.mem_map]
  refine ⟨(i.1, q), ?_, rfl⟩
  rw [List.mem_enum_iff_getElem?]
  rw [List.getElem?_eq_getElem i.2, ← hv]
  simp [List.get_eq_getElem]

theorem computeSlots_spec_of_mem {g : Grid} {s : Slot}
    (h : s ∈ computeSlots g) :
    (s.dir = Dir.H ∧ specHRun g s.r s.c s.len) ∨
    (s.dir = Dir.V ∧ specVRun g s.r s.c s.len) := by
  have hq := mem_computeSlots_raw h
  rcases List.mem_append.mp hq with hq | hq
  · obtain ⟨r, c, n, heq, hspec⟩ := (mem_hrawOf g _).mp hq
    simp only [Prod.mk.injEq] at heq
    obtain ⟨h1, h2, h3, h4⟩ := heq
    exact Or.inl ⟨h4, by rw [h1, h2, h3]; exact hspec⟩
  · obtain ⟨r, c, n, heq, hspec⟩ := (mem_vrawOf g _).mp hq
    simp only [Prod.mk.injEq] at heq
    obtain ⟨h1, h2, h3, h4⟩ := heq
    exact Or.inr ⟨h4, by rw [h1, h2, h3]; exact hspec⟩

theorem specHRun_mem_computeSlots {g : Grid} {r c n : Nat}
    (h : specHRun g r c n) :
    ∃ i, (⟨i, r, c, n, Dir.H⟩ : Slot) ∈ computeSlots g := by
  have hq : ((r, c, n, Dir.H) : Nat × Nat × Nat × Dir) ∈ rawSlots g :=
    List.mem_append.mpr (Or.inl ((mem_hrawOf g _).mpr ⟨r, c, n, rfl, h⟩))
  exact raw_mem_computeSlots hq

theorem specVRun_mem_computeSlots {g : Grid} {r c n : Nat}
    (h : specVRun g r c n) :
    ∃ i, (⟨i, r, c, n, Dir.V⟩ : Slot) ∈ computeSlots g := by
  have hq : ((r, c, n, Dir.V) : Nat × Nat × Nat × Dir) ∈ rawSlots g :=
    List.mem_append.mpr (Or.inr ((mem_vrawOf g _).mpr ⟨r, c, n, rfl, h⟩))
  exact raw_mem_computeSlots hq

theorem computeSlots_map_id (g : Grid) :
    (computeSlots g).map Slot.id = List.range (computeSlots g).length := by
  have h1 : (computeSlots g).map Slot.id = (rawSlots g).enum.map Prod.fst := by
    rw [computeSlots, List.map_map]
    rfl
  rw [h1, List.enum_map_fst]
  simp [computeSlots, List.enum_length]

theorem computeSlots_id_inj {g : Grid} {s t : Slot}
    (hs : s ∈ computeSlots g) (ht : t ∈ computeSlots g) (h : s.id = t.id) :
    s = t := by
  have hnd : ((computeSlots g).map Slot.id).Nodup := by
    rw [computeSlots_map_id]
    exact List.nodup_range _
  exact List.inj_on_of_nodup_map hnd hs ht h

theorem computeSlots_len_ge_two {g : Grid} {s : Slot}
    (h : s ∈ computeSlots g) : 2 ≤ s.len := by
  rcases computeSlots_spec_of_mem h with ⟨-, hspec⟩ | ⟨-, hspec⟩
  · exact hspec.1
  · exact hspec.1

/-- Every cell a slot covers is open (and in particular in bounds). -/
theorem computeSlots_covers_open {g : Grid} {s : Slot}
    (h : s ∈ computeSlots g) :
    ∀ k < s.len, (cellAt g (coordOf s k).1 (coordOf s k).2).blocked = false := by
  intro k hk
  rcases computeSlots_spec_of_mem h with ⟨hdir, hspec⟩ | ⟨hdir, hspec⟩
  · simp only [coordOf, hdir]
    exact hspec.2.2.2.1 k hk
  · simp only [coordOf, hdir]
    exact hspec.2.2.2.1 k hk

theorem coordOf_inj (s : Slot) {k k' : Nat}
    (h : coordOf s k = coordOf s k') : k = k' := by
  cases hd : s.dir with
  | H =>
      simp only [coordOf, hd, Prod.mk.injEq] at h
      omega
  | V =>
      simp only [coordOf, hd, Prod.mk.injEq] at h
      omega

/-! ### Discovery order of `computeSlots` -/

/-- Row-major order on horizontal slots. -/
def hlex (s t : Slot) : Prop := s.r < t.r ∨ (s.r = t.r ∧ s.c < t.c)

/-- Column-major order on vertical slots. -/
def vlex (s t : Slot) : Prop := s.c < t.c ∨ (s.c = t.c ∧ s.r < t.r)

theorem pairwise_flatMap {α β : Type} {l : List α} {f : α → List β}
    {R : β → β → Prop} (h1 : ∀ a ∈ l, (f a).Pairwise R)
    (h2 : l.Pairwise (fun a b => ∀ x ∈ f a, ∀ y ∈ f b, R x y)) :
    (l.flatMap f).Pairwise R := by
  rw [List.flatMap_def]
  refine List.pairwise_flatten.mpr ⟨?_, ?_⟩
  · intro l' hl'
    obtain ⟨a, ha, rfl⟩ := List.mem_map.mp hl'
    exact h1 a ha
  · exact List.pairwise_map.mpr h2

theorem pairwise_mem_or {α : Type} {R : α → α → Prop} {l : List α}
    (h : l.Pairwise R) {a b : α} (ha : a ∈ l) (hb : b ∈ l) (hne : a ≠ b) :
    R a b ∨ R b a := by
  have h2 : l.Pairwise (fun x y => R x y ∨ R y x) := h.imp Or.inl
  exact List.Pairwise.forall (fun x y hxy => hxy.symm) h2 ha hb hne

theorem hrawOf_pairwise (g : Grid) :
    (hrawOf g).Pairwise
      (fun p q => p.1 < q.1 ∨ (p.1 = q.1 ∧ p.2.1 < q.2.1)) := by
  refine pairwise_flatMap ?_ ?_
  · intro r hr
    rw [List.pairwise_map]
    refine List.Pairwise.imp ?_ ((openRuns_pairwise (hline g r)).filter _)
    intro p q hpq
    exact Or.inr ⟨rfl, hpq⟩
  · refine List.Pairwise.imp ?_ (List.pairwise_lt_range g.length)
    intro a b hab x hx y hy
    obtain ⟨px, -, rfl⟩ := List.mem_map.mp hx
    obtain ⟨py, -, rfl⟩ := List.mem_map.mp hy
    exact Or.inl hab

theorem vrawOf_pairwise (g : Grid) :
    (vrawOf g).Pairwise
      (fun p q => p.2.1 < q.2.1 ∨ (p.2.1 = q.2.1 ∧ p.1 < q.1)) := by
  refine pairwise_flatMap ?_ ?_
  · intro c hc
    rw [List.pairwise_map]
    refine List.Pairwise.imp ?_ ((openRuns_pairwise (vline g c)).filter _)
    intro p q hpq
    exact Or.inr ⟨rfl, hpq⟩
  · refine List.Pairwise.imp ?_ (List.pairwise_lt_range (gridCols g))
    intro a b hab x hx y hy
    obtain ⟨px, -, rfl⟩ := List.mem_map.mp hx
    obtain ⟨py, -, rfl⟩ := List.mem_map.mp hy
    exact Or.inl hab

theorem pairwise_enum {α : Type} {R : α → α → Prop} {l : List α}
    (h : l.Pairwise R) : l.enum.Pairwise (fun p q => R p.2 q.2) := by
  refine List.pairwise_map.mp ?_
  rw [List.enum_map_snd]
  exact h

theorem pairwise_enumFrom {α : Type} {R : α → α → Prop} {l : List α}
    (n : Nat) (h : l.Pairwise R) :
    (l.enumFrom n).Pairwise (fun p q => R p.2 q.2) := by
  refine List.pairwise_map.mp ?_
  rw [List.enumFrom_map_snd]
  exact h

theorem computeSlots_split (g : Grid) :
    ∃ hs vs, computeSlots g = hs ++ vs ∧
      (∀ s ∈ hs, s.dir = Dir.H) ∧ (∀ s ∈ vs, s.dir = Dir.V) ∧
      hs.Pairwise hlex ∧ vs.Pairwise vlex := by
  refine ⟨(hrawOf g).enum.map mkSlot,
    ((vrawOf g).enumFrom (hrawOf g).length).map mkSlot, ?_, ?_, ?_, ?_, ?_⟩
  · rw [computeSlots, rawSlots,
      show (hrawOf g ++ vrawOf g).enum =
        (hrawOf g).enum ++ (vrawOf g).enumFrom (hrawOf g).length from by
      simp [List.enum_append], List.map_append]
  · intro s hs
    obtain ⟨⟨i, q⟩, hmem, rfl⟩ := List.mem_map.mp hs
    have hq : q ∈ hrawOf g := by
      have := List.enum_map_snd (hrawOf g)
      rw [← this]
      exact List.mem_map_of_mem Prod.snd hmem
    obtain ⟨r, c, n, rfl, -⟩ := (mem_hrawOf g q).mp hq
    rfl
  · intro s hs
    obtain ⟨⟨i, q⟩, hmem, rfl⟩ := List.mem_map.mp hs
    have hq : q ∈ vrawOf g := by
      have := List.enumFrom_map_snd (hrawOf g).length (vrawOf g)
      rw [← this]
      exact List.mem_map_of_mem Prod.snd hmem
    obtain ⟨r, c, n, rfl, -⟩ := (mem_vrawOf g q).mp hq
    rfl
  · refine List.pairwise_map.mpr ?_
    refine List.Pairwise.imp ?_ (pairwise_enum (hrawOf_pairwise g))
    intro p q hpq
    exact hpq
  · refine List.pairwise_map.mpr ?_
    refine List.Pairwise.imp ?_
      (pairwise_enumFrom (hrawOf g).length (vrawOf_pairwise g))
    intro p q hpq
    exact hpq

/-- Two distinct slots of the same direction never share a grid cell
(maximal runs along one axis are disjoint). -/
theorem sameDir_no_shared {g : Grid} {s t : Slot}
    (hs : s ∈ computeSlots g) (ht : t ∈ computeSlots g) (hne : s ≠ t)
    (hdir : s.dir = t.dir) {p : Nat × Nat}
    (hp1 : covers s p) (hp2 : covers t p) : False := by
  obtain ⟨hs', vs', hsplit, hH, hV, hph, hpv⟩ := computeSlots_split g
  obtain ⟨k1, hk1, hc1⟩ := hp1
  obtain ⟨k2, hk2, hc2⟩ := hp2
  cases hd : s.dir with
  | H =>
      have hd2 : t.dir = Dir.H := hdir ▸ hd
      have hmemh : s ∈ hs' ∧ t ∈ hs' := by
        constructor
        · rcases List.mem_append.mp (hsplit ▸ hs) with h | h
          · exact h
          · exact absurd (hV s h) (by rw [hd]; simp)
        · rcases List.mem_append.mp (hsplit ▸ ht) with h | h
          · exact h
          · exact absurd (hV t h) (by rw [hd2]; simp)
      have hspec1 : specHRun g s.r s.c s.len := by
        rcases computeSlots_spec_of_mem hs with ⟨-, h⟩ | ⟨hv, -⟩
        · exact h
        · rw [hd] at hv
          exact absurd hv (by simp)
      have hspec2 : specHRun g t.r t.c t.len := by
        rcases computeSlots_spec_of_mem ht with ⟨-, h⟩ | ⟨hv, -⟩
        · exact h
        · rw [hd2] at hv
          exact absurd hv (by simp)
      simp only [coordOf, hd] at hc1
      simp only [coordOf, hd2] at hc2
      have hr : s.r = t.r := by
        have := hc1.trans hc2.symm
        simp only [Prod.mk.injEq] at this
        exact this.1
      have hcc : s.c + k1 = t.c + k2 := by
        have := hc1.trans hc2.symm
        simp only [Prod.mk.injEq] at this
        exact this.2
      rcases pairwise_mem_or hph hmemh.1 hmemh.2 hne with hlt | hlt
      · rcases hlt with hlt | ⟨-, hlt⟩
        · omega
        · -- s.c < t.c: t's left delimiter sits inside s's open run
          have ht0 : ¬ t.c = 0 := by omega
          rcases hspec2.2.2.2.2.1 with h0 | hblk
          · exact ht0 h0
          · have hopen := hspec1.2.2.2.1 (t.c - 1 - s.c) (by omega)
            rw [show s.c + (t.c - 1 - s.c) = t.c - 1 from by omega] at hopen
            rw [hr] at hopen
            rw [hopen] at hblk
            exact absurd hblk (by simp)
      · rcases hlt with hlt | ⟨-, hlt⟩
        · omega
        · have hs0 : ¬ s.c = 0 := by omega
          rcases hspec1.2.2.2.2.1 with h0 | hblk
          · exact hs0 h0
          · have hopen := hspec2.2.2.2.1 (s.c - 1 - t.c) (by omega)
            rw [show t.c + (s.c - 1 - t.c) = s.c - 1 from by omega] at hopen
            rw [← hr] at hopen
            rw [hopen] at hblk
            exact absurd hblk (by simp)
  | V =>
      have hd2 : t.dir = Dir.V := hdir ▸ hd
      have hmemv : s ∈ vs' ∧ t ∈ vs' := by
        constructor
        · rcases List.mem_append.mp (hsplit ▸ hs) with h | h
          · exact absurd (hH s h) (by rw [hd]; simp)
          · exact h
        · rcases List.mem_append.mp (hsplit ▸ ht) with h | h
          · exact absurd (hH t h) (by rw [hd2]; simp)
          · exact h
      have hspec1 : specVRun g s.r s.c s.len := by
        rcases computeSlots_spec_of_mem hs with ⟨hv, -⟩ | ⟨-, h⟩
        · rw [hd] at hv
          exact absurd hv (by simp)
        · exact h
      have hspec2 : specVRun g t.r t.c t.len := by
        rcases computeSlots_spec_of_mem ht with ⟨hv, -⟩ | ⟨-, h⟩
        · rw [hd2] at hv
          exact absurd hv (by simp)
        · exact h
      simp only [coordOf, hd] at hc1
      simp only [coordOf, hd2] at hc2
      have hcc : s.c = t.c := by
        have := hc1.trans hc2.symm
        simp only [Prod.mk.injEq] at this
        exact this.2
      have hrr : s.r + k1 = t.r + k2 := by
        have := hc1.trans hc2.symm
        simp only [Prod.mk.injEq] at this
        exact this.1
      rcases pairwise_mem_or hpv hmemv.1 hmemv.2 hne with hlt | hlt
      · rcases hlt with hlt | ⟨-, hlt⟩
        · omega
        · have ht0 : ¬ t.r = 0 := by omega
          rcases hspec2.2.2.2.2.1 with h0 | hblk
          · exact ht0 h0
          · have hopen := hspec1.2.2.2.1 (t.r - 1 - s.r) (by omega)
            rw [show s.r + (t.r - 1 - s.r) = t.r - 1 from by omega] at hopen
            rw [hcc] at hopen
            rw [hopen] at hblk
            exact absurd hblk (by simp)
      · rcases hlt with hlt | ⟨-, hlt⟩
        · omega
        · have hs0 : ¬ s.r = 0 := by omega
          rcases hspec1.2.2.2.2.1 with h0 | hblk
          · exact hs0 h0
          · have hopen := hspec2.2.2.2.1 (s.r - 1 - t.r) (by omega)
            rw [show t.r + (s.r - 1 - t.r) = s.r - 1 from by omega] at hopen
            rw [← hcc] at hopen
            rw [hopen] at hblk
            exact absurd hblk (by simp)

/-- Two distinct slots share at most one grid cell. -/
theorem sharedCoord_unique {g : Grid} {s t : Slot}
    (hs : s ∈ computeSlots g) (ht : t ∈ computeSlots g) (hne : s ≠ t)
    {p q : Nat × Nat} (hp1 : covers s p) (hp2 : covers t p)
    (hq1 : covers s q) (hq2 : covers t q) : p = q := by
  by_cases hdir : s.dir = t.dir
  · exact absurd (sameDir_no_shared hs ht hne hdir hp1 hp2) (by simp)
  · obtain ⟨k1, -, hc1⟩ := hp1
    obtain ⟨k2, -, hc2⟩ := hp2
    obtain ⟨k3, -, hc3⟩ := hq1
    obtain ⟨k4, -, hc4⟩ := hq2
    cases hd : s.dir with
    | H =>
        have hd2 : t.dir = Dir.V := by
          cases hdt : t.dir
          · rw [hd, hdt] at hdir
            exact absurd rfl hdir
          · rfl
        simp only [coordOf, hd] at hc1 hc3
        simp only [coordOf, hd2] at hc2 hc4
        have h1 : p.1 = s.r := by rw [← hc1]
        have h2 : p.2 = t.c := by rw [← hc2]
        have h3 : q.1 = s.r := by rw [← hc3]
        have h4 : q.2 = t.c := by rw [← hc4]
        have hp : p = (s.r, t.c) := by rw [← h1, ← h2]
        have hq : q = (s.r, t.c) := by rw [← h3, ← h4]
        rw [hp, hq]
    | V =>
        have hd2 : t.dir = Dir.H := by
          cases hdt : t.dir
          · rfl
          · rw [hd, hdt] at hdir
            exact absurd rfl hdir
        simp only [coordOf, hd] at hc1 hc3
        simp only [coordOf, hd2] at hc2 hc4
        have h1 : p.1 = t.r := by rw [← hc2]
        have h2 : p.2 = s.c := by rw [← hc1]
        have h3 : q.1 = t.r := by rw [← hc4]
        have h4 : q.2 = s.c := by rw [← hc3]
        have hp : p = (t.r, s.c) := by rw [← h1, ← h2]
        have hq : q = (t.r, s.c) := by rw [← h3, ← h4]
        rw [hp, hq]

/-! ### Characterizing `buildCrosses` -/

/-- The coordinate keys of the `mark` map. -/
def keysOf (m : List ((Nat × Nat) × List (Nat × Nat))) : List (Nat × Nat) :=
  m.map Prod.fst

/-- Every (coordinate, (slot id, offset)) touch, in the insertion order of
`buildCrosses`' first loop. -/
def touches (slots : List Slot) : List ((Nat × Nat) × (Nat × Nat)) :=
  slots.flatMap (fun s =>
    (List.range s.len).map (fun k => (coordOf s k, (s.id, k))))

theorem foldl_flatMap {α β γ : Type} (l : List α) (f : α → List β)
    (op : γ → β → γ) (init : γ) :
    (l.flatMap f).foldl op init =
      l.foldl (fun acc a => (f a).foldl op acc) init := by
  induction l generalizing init with
  | nil => rfl
  | cons a l ih => simp only [List.flatMap_cons, List.foldl_append,
      List.foldl_cons, ih]

theorem markOf_eq_fold (slots : List Slot) :
    markOf slots = (touches slots).foldl (fun m p => upsert m p.1 p.2) [] := by
  rw [markOf, touches, foldl_flatMap]
  congr 1
  funext m s
  rw [List.foldl_map]

theorem filter_key_append_one (seen : List ((Nat × Nat) × (Nat × Nat)))
    (p : (Nat × Nat) × (Nat × Nat)) (key : Nat × Nat) :
    (seen ++ [p]).filter (fun q => q.1 = key) =
      if p.1 = key then seen.filter (fun q => q.1 = key) ++ [p]
      else seen.filter (fun q => q.1 = key) := by
  rw [List.filter_append, List.filter_singleton]
  by_cases h : p.1 = key
  · simp [h]
  · simp [h]

theorem upsert_of_not_mem {m : List ((Nat × Nat) × List (Nat × Nat))}
    {key : Nat × Nat} (v : Nat × Nat) (h : key ∉ keysOf m) :
    upsert m key v = m ++ [(key, [v])] := by
  induction m with
  | nil => rfl
  | cons e rest ih =>
      obtain ⟨k, l⟩ := e
      simp only [keysOf, List.map_cons, List.mem_cons] at h
      push_neg at h
      rw [upsert, if_neg (fun hc => h.1 hc.symm),
        ih (by simpa [keysOf] using h.2)]
      rfl

theorem keysOf_upsert_of_mem {m : List ((Nat × Nat) × List (Nat × Nat))}
    {key : Nat × Nat} (v : Nat × Nat) (h : key ∈ keysOf m) :
    keysOf (upsert m key v) = keysOf m := by
  induction m with
  | nil => simp [keysOf] at h
  | cons e rest ih =>
      obtain ⟨k, l⟩ := e
      by_cases hk : k = key
      · rw [upsert, if_pos hk]
        rfl
      · rw [upsert, if_neg hk]
        simp only [keysOf, List.map_cons, List.mem_cons] at h ⊢
        rcases h with h | h
        · exact absurd h.symm hk
        · rw [show List.map Prod.fst (upsert rest key v) =
            keysOf (upsert rest key v) from rfl, ih h]
          rfl

theorem mem_upsert_of_mem {m : List ((Nat × Nat) × List (Nat × Nat))}
    {key : Nat × Nat} (v : Nat × Nat) (hnd : (keysOf m).Nodup)
    (h : key ∈ keysOf m) :
    ∀ e, e ∈ upsert m key v ↔
      ((e ∈ m ∧ e.1 ≠ key) ∨ (∃ l, (key, l) ∈ m ∧ e = (key, l ++ [v]))) := by
  induction m with
  | nil => simp [keysOf] at h
  | cons p rest ih =>
      obtain ⟨k, l⟩ := p
      simp only [keysOf, List.map_cons, List.nodup_cons] at hnd
      intro e
      by_cases hk : k = key
      · subst hk
        rw [upsert, if_pos rfl]
        simp only [List.mem_cons]
        constructor
        · rintro (rfl | he)
          · exact Or.inr ⟨l, Or.inl rfl, rfl⟩
          · have hek : e.1 ≠ k := by
              intro hc
              exact hnd.1 (hc ▸ List.mem_map_of_mem Prod.fst he)
            exact Or.inl ⟨Or.inr he, hek⟩
        · rintro (⟨he, hek⟩ | ⟨l', hl', rfl⟩)
          · rcases he with rfl | he
            · exact absurd rfl hek
            · exact Or.inr he
          · rcases hl' with heq | hl'
            · simp only [Prod.mk.injEq] at heq
              rw [heq.2]
              exact Or.inl rfl
            · exact absurd (List.mem_map_of_mem Prod.fst hl') (by
                simpa using hnd.1)
      · have hmem : key ∈ keysOf rest := by
          simp only [keysOf, List.map_cons, List.mem_cons] at h ⊢
          rcases h with h | h
          · exact absurd h.symm hk
          · exact h
        rw [upsert, if_neg hk]
        simp only [List.mem_cons, ih hnd.2 hmem e]
        constructor
        · rintro (rfl | (⟨he, hek⟩ | ⟨l', hl', rfl⟩))
          · exact Or.inl ⟨Or.inl rfl, hk⟩
          · exact Or.inl ⟨Or.inr he, hek⟩
          · exact Or.inr ⟨l', Or.inr hl', rfl⟩
        · rintro (⟨he, hek⟩ | ⟨l', hl', rfl⟩)
          · rcases he with rfl | he
            · exact Or.inl rfl
            · exact Or.inr (Or.inl ⟨he, hek⟩)
          · rcases hl' with heq | hl'
            · exact absurd (congrArg Prod.fst heq).symm hk
            · exact Or.inr (Or.inr ⟨l', hl', rfl⟩)

/-- The `mark`-map fold invariant: after processing `seen`, keys are unique,
every entry holds exactly the seen touches of its coordinate in order, and
every seen coordinate has an entry. -/
def MarkInv (seen : List ((Nat × Nat) × (Nat × Nat)))
    (m : List ((Nat × Nat) × List (Nat × Nat))) : Prop :=
  (keysOf m).Nodup ∧
  (∀ e ∈ m, e.2 = (seen.filter (fun p => p.1 = e.1)).map Prod.snd ∧
    e.2 ≠ []) ∧
  (∀ p ∈ seen, p.1 ∈ keysOf m)

theorem markInv_step {seen : List ((Nat × Nat) × (Nat × Nat))}
    {m : List ((Nat × Nat) × List (Nat × Nat))} (hinv : MarkInv seen m)
    (p : (Nat × Nat) × (Nat × Nat)) :
    MarkInv (seen ++ [p]) (upsert m p.1 p.2) := by
  obtain ⟨hnd, hval, hkeys⟩ := hinv
  by_cases hmem : p.1 ∈ keysOf m
  · refine ⟨by rw [keysOf_upsert_of_mem p.2 hmem]; exact hnd, ?_, ?_⟩
    · intro e he
      rw [mem_upsert_of_mem p.2 hnd hmem e] at he
      rcases he with ⟨he, hek⟩ | ⟨l, hl, rfl⟩
      · obtain ⟨hv, hne⟩ := hval e he
        refine ⟨?_, hne⟩
        rw [filter_key_append_one, if_neg (fun hc => hek hc.symm)]
        exact hv
      · obtain ⟨hv, -⟩ := hval (p.1, l) hl
        refine ⟨?_, by simp⟩
        rw [filter_key_append_one, if_pos rfl, List.map_append]
        simp only [List.map_cons, List.map_nil]
        exact congrArg (fun x => x ++ [p.2]) hv
    · intro q hq
      rw [keysOf_upsert_of_mem p.2 hmem]
      rcases List.mem_append.mp hq with hq | hq
      · exact hkeys q hq
      · rw [List.mem_singleton.mp hq]
        exact hmem
  · rw [upsert_of_not_mem p.2 hmem]
    have hseen_none : seen.filter (fun q => q.1 = p.1) = [] := by
      rw [List.filter_eq_nil_iff]
      intro q hq
      simp only [decide_eq_true_eq]
      intro hc
      exact hmem (hc ▸ hkeys q hq)
    refine ⟨?_, ?_, ?_⟩
    · rw [keysOf, List.map_append]
      simp only [List.map_cons, List.map_nil]
      rw [List.nodup_append]
      refine ⟨hnd, List.nodup_singleton _, ?_⟩
      intro a ha hb
      rw [List.mem_singleton] at hb
      exact hmem (hb ▸ ha)
    · intro e he
      rcases List.mem_append.mp he with he | he
      · obtain ⟨hv, hne⟩ := hval e he
        refine ⟨?_, hne⟩
        rw [filter_key_append_one,
          if_neg (fun hc => hmem (by
            rw [hc]
            exact List.mem_map_of_mem Prod.fst he))]
        exact hv
      · rw [List.mem_singleton.mp he]
        refine ⟨?_, by simp⟩
        rw [filter_key_append_one, if_pos rfl]
        rw [show ((p.1, [p.2]) : (Nat × Nat) × List (Nat × Nat)).1 = p.1 from
          rfl, hseen_none]
        simp
    · intro q hq
      rcases List.mem_append.mp hq with hq | hq
      · rw [keysOf, List.map_append]
        exact List.mem_append.mpr (Or.inl (hkeys q hq))
      · rw [List.mem_singleton.mp hq, keysOf, List.map_append]
        exact List.mem_append.mpr (Or.inr (by simp))

theorem markInv_foldl (ps : List ((Nat × Nat) × (Nat × Nat))) :
    ∀ (seen : List ((Nat × Nat) × (Nat × Nat)))
      (m : List ((Nat × Nat) × List (Nat × Nat))), MarkInv seen m →
      MarkInv (seen ++ ps) (ps.foldl (fun acc p => upsert acc p.1 p.2) m) := by
  induction ps with
  | nil =>
      intro seen m h
      simpa using h
  | cons p ps ih =>
      intro seen m h
      have := ih (seen ++ [p]) (upsert m p.1 p.2) (markInv_step h p)
      simpa using this

theorem markOf_spec (slots : List Slot) : MarkInv (touches slots)
    (markOf slots) := by
  rw [markOf_eq_fold]
  have := markInv_foldl (touches slots) [] []
    ⟨by simp [keysOf], by simp, by simp⟩
  simpa using this

theorem exists_getElem?_of_mem {α : Type} {l : List α} {a : α} (h : a ∈ l) :
    ∃ i : Nat, l[i]? = some a := by
  obtain ⟨i, hv⟩ := List.get_of_mem h
  exact ⟨i.1, by
    rw [List.getElem?_eq_getElem i.2, ← hv]
    simp [List.get_eq_getElem]⟩

theorem lt_length_of_getElem? {α : Type} {l : List α} {i : Nat} {a : α}
    (h : l[i]? = some a) : i < l.length := by
  by_contra hc
  rw [List.getElem?_eq_none_iff.mpr (by omega)] at h
  exact absurd h (by simp)

theorem mem_touches {slots : List Slot} {key v : Nat × Nat} :
    (key, v) ∈ touches slots ↔
      ∃ s ∈ slots, s.id = v.1 ∧ v.2 < s.len ∧ coordOf s v.2 = key := by
  obtain ⟨v1, v2⟩ := v
  simp only [touches, List.mem_flatMap, List.mem_map, List.mem_range]
  constructor
  · rintro ⟨s, hs, k, hk, heq⟩
    simp only [Prod.mk.injEq] at heq
    obtain ⟨h1, h2, h3⟩ := heq
    subst h2
    subst h3
    exact ⟨s, hs, rfl, hk, h1⟩
  · rintro ⟨s, hs, h1, h2, h3⟩
    subst h1
    exact ⟨s, hs, v2, h2, by rw [h3]⟩

theorem markOf_arr_eq {slots : List Slot} {key : Nat × Nat}
    {arr : List (Nat × Nat)} (h : (key, arr) ∈ markOf slots) :
    arr = ((touches slots).filter (fun p => p.1 = key)).map Prod.snd :=
  ((markOf_spec slots).2.1 (key, arr) h).1

theorem markOf_arr_mem {slots : List Slot} {key : Nat × Nat}
    {arr : List (Nat × Nat)} (h : (key, arr) ∈ markOf slots) {v : Nat × Nat}
    (hv : v ∈ arr) :
    ∃ s ∈ slots, s.id = v.1 ∧ v.2 < s.len ∧ coordOf s v.2 = key := by
  rw [markOf_arr_eq h] at hv
  obtain ⟨p, hp, rfl⟩ := List.mem_map.mp hv
  obtain ⟨hpt, hpk⟩ := List.mem_filter.mp hp
  have hk : p.1 = key := by simpa using hpk
  have : (key, p.2) ∈ touches slots := by
    rw [← hk]
    exact hpt
  exact mem_touches.mp this

theorem touches_snd_nodup {slots : List Slot}
    (hnd : (slots.map Slot.id).Nodup) :
    ((touches slots).map Prod.snd).Nodup := by
  rw [touches, List.map_flatMap]
  have hpw : slots.Pairwise (fun s t => s.id ≠ t.id) :=
    List.pairwise_map.mp hnd
  refine pairwise_flatMap ?_ ?_
  · intro s hs
    simp only [List.map_map]
    refine List.pairwise_map.mpr ?_
    refine List.Pairwise.imp ?_ (List.pairwise_lt_range s.len)
    intro a b hab
    simp only [Function.comp, ne_eq, Prod.mk.injEq, not_and]
    intro _
    omega
  · refine List.Pairwise.imp ?_ hpw
    intro s t hst x hx y hy
    simp only [List.map_map, List.mem_map] at hx hy
    obtain ⟨kx, -, rfl⟩ := hx
    obtain ⟨ky, -, rfl⟩ := hy
    simp only [Function.comp, ne_eq, Prod.mk.injEq, not_and]
    intro hc
    exact absurd hc hst

theorem markOf_arr_nodup {slots : List Slot}
    (hnd : (slots.map Slot.id).Nodup) {key : Nat × Nat}
    {arr : List (Nat × Nat)} (h : (key, arr) ∈ markOf slots) :
    arr.Nodup ∧ (arr.map Prod.fst).Nodup := by
  have hinj : ∀ s ∈ slots, ∀ t ∈ slots, s.id = t.id → s = t :=
    fun s hs t ht he => List.inj_on_of_nodup_map hnd hs ht he
  have harrnd : arr.Nodup := by
    rw [markOf_arr_eq h]
    exact List.Nodup.sublist
      ((List.filter_sublist (touches slots)).map Prod.snd)
      (touches_snd_nodup hnd)
  refine ⟨harrnd, List.Nodup.map_on ?_ harrnd⟩
  intro x hx y hy hxy
  obtain ⟨s, hs, hsid, hslt, hsco⟩ := markOf_arr_mem h hx
  obtain ⟨t, ht, htid, htlt, htco⟩ := markOf_arr_mem h hy
  have hst : s = t := hinj s hs t ht (by rw [hsid, htid, hxy])
  subst hst
  have hk : x.2 = y.2 := coordOf_inj s (hsco.trans htco.symm)
  obtain ⟨x1, x2⟩ := x
  obtain ⟨y1, y2⟩ := y
  simp only at hxy hk
  rw [hxy, hk]

theorem mem_pairsOf {arr : List (Nat × Nat)} {cr : Cross} :
    cr ∈ pairsOf arr ↔ ∃ (i j : Nat) (x y : Nat × Nat), i < j ∧
      arr[i]? = some x ∧ arr[j]? = some y ∧ cr = ⟨x.1, x.2, y.1, y.2⟩ := by
  induction arr with
  | nil =>
      simp only [pairsOf, List.not_mem_nil, false_iff]
      rintro ⟨i, j, x, y, -, hi, -, -⟩
      simp at hi
  | cons x₀ rest ih =>
      simp only [pairsOf, List.mem_append, List.mem_map, ih]
      constructor
      · rintro (⟨y, hy, rfl⟩ | ⟨i, j, x, y, hij, hi, hj, rfl⟩)
        · obtain ⟨j, hj⟩ := exists_getElem?_of_mem hy
          exact ⟨0, j + 1, x₀, y, by omega, by simp,
            by simpa [List.getElem?_cons_succ] using hj, rfl⟩
        · exact ⟨i + 1, j + 1, x, y, by omega,
            by simpa [List.getElem?_cons_succ] using hi,
            by simpa [List.getElem?_cons_succ] using hj, rfl⟩
      · rintro ⟨i, j, x, y, hij, hi, hj, rfl⟩
        cases i with
        | zero =>
            have hx : x = x₀ := by
              rw [List.getElem?_cons_zero] at hi
              exact (Option.some.injEq .. ▸ hi).symm
            obtain ⟨j', rfl⟩ : ∃ j', j = j' + 1 := ⟨j - 1, by omega⟩
            rw [List.getElem?_cons_succ] at hj
            exact Or.inl ⟨y, List.getElem?_mem hj, by rw [hx]⟩
        | succ i' =>
            obtain ⟨j', rfl⟩ : ∃ j', j = j' + 1 := ⟨j - 1, by omega⟩
            rw [List.getElem?_cons_succ] at hi hj
            exact Or.inr ⟨i', j', x, y, by omega, hi, hj, rfl⟩

theorem mem_buildCrosses {slots : List Slot} {cr : Cross} :
    cr ∈ buildCrosses slots ↔ ∃ (key : Nat × Nat) (arr : List (Nat × Nat))
      (i j : Nat) (x y : Nat × Nat),
      ((key, arr) : (Nat × Nat) × List (Nat × Nat)) ∈ markOf slots ∧
      i < j ∧ arr[i]? = some x ∧ arr[j]? = some y ∧
      cr = ⟨x.1, x.2, y.1, y.2⟩ := by
  simp only [buildCrosses, List.mem_flatMap]
  constructor
  · rintro ⟨e, he, hcr⟩
    by_cases hlen : e.2.length < 2
    · rw [if_pos hlen] at hcr
      simp at hcr
    · rw [if_neg hlen] at hcr
      obtain ⟨i, j, x, y, hij, hi, hj, rfl⟩ := mem_pairsOf.mp hcr
      exact ⟨e.1, e.2, i, j, x, y, he, hij, hi, hj, rfl⟩
  · rintro ⟨key, arr, i, j, x, y, he, hij, hi, hj, rfl⟩
    refine ⟨(key, arr), he, ?_⟩
    have hjl : j < arr.length := lt_length_of_getElem? hj
    rw [if_neg (by simp only; omega)]
    exact mem_pairsOf.mpr ⟨i, j, x, y, hij, hi, hj, rfl⟩

/-- Distinct positions of the id-unique touch list carry distinct slot ids. -/
theorem nodup_map_getElem?_ne {α β : Type} {l : List α} {f : α → β}
    (hnd : (l.map f).Nodup) {i j : Nat} {x y : α} (hij : i ≠ j)
    (hi : l[i]? = some x) (hj : l[j]? = some y) : f x ≠ f y := by
  intro heq
  have hi' : (l.map f)[i]? = some (f x) := by rw [List.getElem?_map, hi]; rfl
  have hj' : (l.map f)[j]? = some (f y) := by rw [List.getElem?_map, hj]; rfl
  have hlt : i < (l.map f).length := lt_length_of_getElem? hi'
  exact hij (List.getElem?_inj hlt hnd (by rw [hi', hj', heq]))

theorem markOf_key_inj {slots : List Slot} {key : Nat × Nat}
    {arr arr' : List (Nat × Nat)} (h : (key, arr) ∈ markOf slots)
    (h' : (key, arr') ∈ markOf slots) : arr = arr' := by
  have hnd := (markOf_spec slots).1
  have := List.inj_on_of_nodup_map hnd h h' (by rfl)
  exact (Prod.mk.injEq .. ▸ this).2

/-- Shape of every emitted constraint: two distinct slots of the grid, with
in-range offsets, meeting at one shared cell. -/
theorem buildCrosses_shape {g : Grid} {cr : Cross}
    (h : cr ∈ buildCrosses (computeSlots g)) :
    ∃ sa sb, sa ∈ computeSlots g ∧ sb ∈ computeSlots g ∧
      sa.id = cr.a ∧ sb.id = cr.b ∧ sa ≠ sb ∧
      cr.ia < sa.len ∧ cr.ib < sb.len ∧
      coordOf sa cr.ia = coordOf sb cr.ib := by
  have hnd : ((computeSlots g).map Slot.id).Nodup := by
    rw [computeSlots_map_id]
    exact List.nodup_range _
  obtain ⟨key, arr, i, j, x, y, he, hij, hi, hj, rfl⟩ :=
    mem_buildCrosses.mp h
  obtain ⟨sa, hsa, hsaid, hsalt, hsaco⟩ :=
    markOf_arr_mem he (List.getElem?_mem hi)
  obtain ⟨sb, hsb, hsbid, hsblt, hsbco⟩ :=
    markOf_arr_mem he (List.getElem?_mem hj)
  have hfstnd := (markOf_arr_nodup hnd he).2
  have hxyne : x.1 ≠ y.1 :=
    nodup_map_getElem?_ne hfstnd (by omega) hi hj
  have hne : sa ≠ sb := by
    intro hc
    rw [hc, hsbid] at hsaid
    exact hxyne hsaid.symm
  exact ⟨sa, sb, hsa, hsb, hsaid, hsbid, hne, hsalt, hsblt,
    hsaco.trans hsbco.symm⟩

/-- Existence: every shared cell of two distinct slots produces a crossing
constraint recording the two offsets at that cell (in one of the two
orientations). -/
theorem buildCrosses_exists {g : Grid} {sa sb : Slot}
    (hsa : sa ∈ computeSlots g) (hsb : sb ∈ computeSlots g) (hne : sa ≠ sb)
    {p : Nat × Nat} {ka kb : Nat} (hka : ka < sa.len) (hkb : kb < sb.len)
    (hpa : coordOf sa ka = p) (hpb : coordOf sb kb = p) :
    ∃ cr ∈ buildCrosses (computeSlots g),
      (cr = ⟨sa.id, ka, sb.id, kb⟩ ∨ cr = ⟨sb.id, kb, sa.id, ka⟩) := by
  have hnd : ((computeSlots g).map Slot.id).Nodup := by
    rw [computeSlots_map_id]
    exact List.nodup_range _
  have hta : (p, (sa.id, ka)) ∈ touches (computeSlots g) :=
    mem_touches.mpr ⟨sa, hsa, rfl, hka, hpa⟩
  have htb : (p, (sb.id, kb)) ∈ touches (computeSlots g) :=
    mem_touches.mpr ⟨sb, hsb, rfl, hkb, hpb⟩
  have hkey : p ∈ keysOf (markOf (computeSlots g)) :=
    (markOf_spec (computeSlots g)).2.2 (p, (sa.id, ka)) hta
  obtain ⟨e, hemem, heq⟩ := List.mem_map.mp hkey
  obtain ⟨key, arr⟩ := e
  have hkeyeq : key = p := heq
  subst hkeyeq
  have hmema : (sa.id, ka) ∈ arr := by
    rw [markOf_arr_eq hemem]
    refine List.mem_map.mpr ⟨(key, (sa.id, ka)), ?_, rfl⟩
    exact List.mem_filter.mpr ⟨hta, by simp⟩
  have hmemb : (sb.id, kb) ∈ arr := by
    rw [markOf_arr_eq hemem]
    refine List.mem_map.mpr ⟨(key, (sb.id, kb)), ?_, rfl⟩
    exact List.mem_filter.mpr ⟨htb, by simp⟩
  obtain ⟨i, hi⟩ := exists_getElem?_of_mem hmema
  obtain ⟨j, hj⟩ := exists_getElem?_of_mem hmemb
  have hij : i ≠ j := by
    intro hc
    rw [hc, hj] at hi
    simp only [Option.some.injEq, Prod.mk.injEq] at hi
    exact hne (List.inj_on_of_nodup_map hnd hsa hsb hi.1.symm)
  rcases Nat.lt_or_ge i j with hlt | hge
  · refine ⟨⟨sa.id, ka, sb.id, kb⟩, ?_, Or.inl rfl⟩
    exact mem_buildCrosses.mpr ⟨key, arr, i, j, (sa.id, ka), (sb.id, kb),
      hemem, hlt, hi, hj, rfl⟩
  · have hlt : j < i := by omega
    refine ⟨⟨sb.id, kb, sa.id, ka⟩, ?_, Or.inr rfl⟩
    exact mem_buildCrosses.mpr ⟨key, arr, j, i, (sb.id, kb), (sa.id, ka),
      hemem, hlt, hj, hi, rfl⟩

/-- Uniqueness: no two distinct constraints carry the same unordered pair of
slot ids. -/
theorem buildCrosses_unique {g : Grid} {cr cr' : Cross}
    (h : cr ∈ buildCrosses (computeSlots g))
    (h' : cr' ∈ buildCrosses (computeSlots g))
    (hids : (cr.a = cr'.a ∧ cr.b = cr'.b) ∨ (cr.a = cr'.b ∧ cr.b = cr'.a)) :
    cr = cr' := by
  have hnd : ((computeSlots g).map Slot.id).Nodup := by
    rw [computeSlots_map_id]
    exact List.nodup_range _
  have hinj : ∀ s ∈ computeSlots g, ∀ t ∈ computeSlots g, s.id = t.id →
      s = t := fun s hs t ht he => List.inj_on_of_nodup_map hnd hs ht he
  obtain ⟨key, arr, i, j, x, y, he, hij, hi, hj, hcr⟩ :=
    mem_buildCrosses.mp h
  obtain ⟨key', arr', i', j', x', y', he', hij', hi', hj', hcr'⟩ :=
    mem_buildCrosses.mp h'
  -- slots of the four endpoints
  obtain ⟨sa, hsa, hsaid, hsalt, hsaco⟩ :=
    markOf_arr_mem he (List.getElem?_mem hi)
  obtain ⟨sb, hsb, hsbid, hsblt, hsbco⟩ :=
    markOf_arr_mem he (List.getElem?_mem hj)
  obtain ⟨sa', hsa', hsaid', hsalt', hsaco'⟩ :=
    markOf_arr_mem he' (List.getElem?_mem hi')
  obtain ⟨sb', hsb', hsbid', hsblt', hsbco'⟩ :=
    markOf_arr_mem he' (List.getElem?_mem hj')
  have hcova : covers sa key := ⟨x.2, hsalt, hsaco⟩
  have hcovb : covers sb key := ⟨y.2, hsblt, hsbco⟩
  have hcova' : covers sa' key' := ⟨x'.2, hsalt', hsaco'⟩
  have hcovb' : covers sb' key' := ⟨y'.2, hsblt', hsbco'⟩
  have hxyne : x.1 ≠ y.1 :=
    nodup_map_getElem?_ne (markOf_arr_nodup hnd he).2 (by omega) hi hj
  have hne : sa ≠ sb := by
    intro hc
    rw [hc, hsbid] at hsaid
    exact hxyne hsaid.symm
  -- the id equations transport the primed slots to sa/sb
  have hids2 : (sa'.id = sa.id ∧ sb'.id = sb.id) ∨
      (sa'.id = sb.id ∧ sb'.id = sa.id) := by
    rw [hsaid, hsbid, hsaid', hsbid']
    rw [hcr, hcr'] at hids
    simp only at hids
    rcases hids with ⟨h1, h2⟩ | ⟨h1, h2⟩
    · exact Or.inl ⟨h1.symm, h2.symm⟩
    · exact Or.inr ⟨h2.symm, h1.symm⟩
  have hkeys : key = key' := by
    rcases hids2 with ⟨h1, h2⟩ | ⟨h1, h2⟩
    · have e1 : sa' = sa := hinj sa' hsa' sa hsa h1
      have e2 : sb' = sb := hinj sb' hsb' sb hsb h2
      rw [e1] at hcova'
      rw [e2] at hcovb'
      exact sharedCoord_unique hsa hsb hne hcova hcovb hcova' hcovb'
    · have e1 : sa' = sb := hinj sa' hsa' sb hsb h1
      have e2 : sb' = sa := hinj sb' hsb' sa hsa h2
      rw [e1] at hcova'
      rw [e2] at hcovb'
      exact sharedCoord_unique hsa hsb hne hcova hcovb hcovb' hcova'
  subst hkeys
  have harr : arr = arr' := markOf_key_inj he he'
  subst harr
  -- inside one touch list, id determines position and entry
  have hfstnd := (markOf_arr_nodup hnd he).2
  have helem : ∀ (i1 i2 : Nat) (v1 v2 : Nat × Nat), arr[i1]? = some v1 →
      arr[i2]? = some v2 → v1.1 = v2.1 → i1 = i2 ∧ v1 = v2 := by
    intro i1 i2 v1 v2 h1 h2 hv
    by_cases hc : i1 = i2
    · subst hc
      rw [h1] at h2
      exact ⟨rfl, Option.some_inj.mp h2⟩
    · exact absurd hv (nodup_map_getElem?_ne hfstnd hc h1 h2)
  rw [hcr, hcr']
  rw [hcr, hcr'] at hids
  simp only at hids
  simp only [Cross.mk.injEq]
  rcases hids with ⟨h1, h2⟩ | ⟨h1, h2⟩
  · obtain ⟨hpos1, hval1⟩ := helem i i' x x' hi hi' h1
    obtain ⟨hpos2, hval2⟩ := helem j j' y y' hj hj' h2
    rw [hval1, hval2]
    exact ⟨rfl, rfl, rfl, rfl⟩
  · obtain ⟨hpos1, hval1⟩ := helem i j' x y' hi hj' h1
    obtain ⟨hpos2, hval2⟩ := helem j i' y x' hj hi' h2
    omega

/-! ### `crossRefs`, `fixedOK`, `crossOK`, `domainFor` -/

theorem mem_crossRefs {crosses : List Cross} {i : Nat} {t : Nat × Nat × Nat} :
    t ∈ crossRefs crosses i ↔
      ((⟨i, t.2.1, t.1, t.2.2⟩ : Cross) ∈ crosses ∨
        (⟨t.1, t.2.2, i, t.2.1⟩ : Cross) ∈ crosses) := by
  obtain ⟨o, it, io⟩ := t
  simp only [crossRefs, List.mem_flatMap]
  constructor
  · rintro ⟨c, hc, hmem⟩
    rcases List.mem_append.mp hmem with hm | hm
    · by_cases ha : c.a = i
      · rw [if_pos ha] at hm
        rw [List.mem_singleton] at hm
        simp only [Prod.mk.injEq] at hm
        obtain ⟨h1, h2, h3⟩ := hm
        left
        have : c = ⟨i, it, o, io⟩ := by
          obtain ⟨ca, cia, cb, cib⟩ := c
          simp only at ha h1 h2 h3
          simp only [Cross.mk.injEq]
          exact ⟨ha, h2.symm, h1.symm, h3.symm⟩
        rw [← this]
        exact hc
      · rw [if_neg ha] at hm
        simp at hm
    · by_cases hb : c.b = i
      · rw [if_pos hb] at hm
        rw [List.mem_singleton] at hm
        simp only [Prod.mk.injEq] at hm
        obtain ⟨h1, h2, h3⟩ := hm
        right
        have : c = ⟨o, io, i, it⟩ := by
          obtain ⟨ca, cia, cb, cib⟩ := c
          simp only at hb h1 h2 h3
          simp only [Cross.mk.injEq]
          exact ⟨h1.symm, h3.symm, hb, h2.symm⟩
        rw [← this]
        exact hc
      · rw [if_neg hb] at hm
        simp at hm
  · rintro (hmem | hmem)
    · refine ⟨⟨i, it, o, io⟩, hmem, ?_⟩
      refine List.mem_append.mpr (Or.inl ?_)
      rw [if_pos rfl]
      simp
    · refine ⟨⟨o, io, i, it⟩, hmem, ?_⟩
      refine List.mem_append.mpr (Or.inr ?_)
      rw [if_pos rfl]
      simp

theorem fixedOK_iff {g : Grid} {s : Slot} {w : Word} :
    fixedOK g s w = true ↔
      ∀ k < s.len, ∀ ch, fixedFor g s k = some ch → w[k]? = some ch := by
  rw [fixedOK, List.all_eq_true]
  constructor
  · intro h k hk ch hch
    have := h k (List.mem_range.mpr hk)
    rw [hch] at this
    simpa using this
  · intro h k hkmem
    rcases hch : fixedFor g s k with _ | ch
    · simp
    · have := h k (List.mem_range.mp hkmem) ch hch
      simpa using this

theorem crossOK_iff {crosses : List Cross} {asg : Asg} {i : Nat} {w : Word} :
    crossOK crosses asg i w = true ↔
      ∀ t ∈ crossRefs crosses i, ∀ other, alookup asg t.1 = some other →
        (other = [] ∨ w[t.2.1]? = other[t.2.2]?) := by
  rw [crossOK, List.all_eq_true]
  constructor
  · intro h t ht other hother
    have := h t ht
    rw [hother] at this
    rcases other with _ | ⟨c0, cs⟩
    · exact Or.inl rfl
    · right
      simpa using this
  · intro h t ht
    rcases hother : alookup asg t.1 with _ | other
    · simp
    · rcases h t ht other hother with rfl | heq
      · simp
      · simp [heq]

theorem mem_domainFor {g : Grid} {wl : List Word} {crosses : List Cross}
    {asg : Asg} {used : List Word} {s : Slot} {w : Word} :
    w ∈ domainFor g wl crosses asg used s ↔
      (w ∈ wl ∧ w.length = s.len ∧ w ∉ used ∧ fixedOK g s w = true ∧
        crossOK crosses asg s.id w = true) := by
  rw [domainFor]
  simp only [List.mem_filter, getByLen_buildByLen, Bool.and_eq_true,
    Bool.not_eq_true', decide_eq_true_eq]
  have hw : (wmem used w = false) ↔ w ∉ used := by
    rw [← wmem_iff]
    cases wmem used w <;> simp
  rw [hw]
  tauto

/-! ### `pickNext` -/

/-- The pure minimum-tracking spine of `pickNext` once a best slot is held:
keep the current best `b`, replace it only on a strictly smaller domain. -/
def pickMin (g : Grid) (wl : List Word) (crosses : List Cross) (asg : Asg)
    (used : List Word) : List Slot → Slot → Slot
  | [], b => b
  | s :: rest, b =>
      if assigned asg s.id then pickMin g wl crosses asg used rest b
      else if (domainFor g wl crosses asg used s).length <
          (domainFor g wl crosses asg used b).length then
        pickMin g wl crosses asg used rest s
      else pickMin g wl crosses asg used rest b

theorem pickGo_none_iff (g : Grid) (wl : List Word) (crosses : List Cross)
    (asg : Asg) (used : List Word) :
    ∀ (l : List Slot) (best : Option (Slot × Nat)),
      (pickGo g wl crosses asg used l best = none ↔
        ((∀ s ∈ l, assigned asg s.id = true) ∧ best = none)) := by
  intro l
  induction l with
  | nil =>
      intro best
      cases best with
      | none => simp [pickGo]
      | some b => simp [pickGo]
  | cons s rest ih =>
      intro best
      by_cases ha : assigned asg s.id
      · rw [show pickGo g wl crosses asg used (s :: rest) best =
            pickGo g wl crosses asg used rest best from by
          simp [pickGo, ha]]
        rw [ih best]
        constructor
        · rintro ⟨h1, h2⟩
          exact ⟨by
            intro t ht
            rcases List.mem_cons.mp ht with rfl | ht
            · exact ha
            · exact h1 t ht, h2⟩
        · rintro ⟨h1, h2⟩
          exact ⟨fun t ht => h1 t (List.mem_cons_of_mem s ht), h2⟩
      · constructor
        · intro h
          exfalso
          by_cases hz : (domainFor g wl crosses asg used s).length = 0
          · rw [show pickGo g wl crosses asg used (s :: rest) best =
                some s from by simp [pickGo, ha, hz]] at h
            exact absurd h (by simp)
          · rw [show pickGo g wl crosses asg used (s :: rest) best =
                pickGo g wl crosses asg used rest
                  (bestUpd s (domainFor g wl crosses asg used s).length
                    best) from by simp [pickGo, ha, hz]] at h
            rw [ih] at h
            obtain ⟨-, h2⟩ := h
            cases best with
            | none => exact absurd h2 (by simp [bestUpd])
            | some bp =>
                by_cases hlt : (domainFor g wl crosses asg used s).length <
                    bp.2 <;> simp [bestUpd, hlt] at h2
        · rintro ⟨h1, -⟩
          exact absurd (h1 s (List.mem_cons_self s rest)) (by simp [ha])

theorem pickNext_none_iff (g : Grid) (wl : List Word) (crosses : List Cross)
    (slots : List Slot) (asg : Asg) (used : List Word) :
    pickNext g wl crosses slots asg used = none ↔
      ∀ s ∈ slots, assigned asg s.id = true := by
  rw [pickNext, pickGo_none_iff]
  simp

theorem pickGo_some_mem (g : Grid) (wl : List Word) (crosses : List Cross)
    (asg : Asg) (used : List Word) :
    ∀ (l : List Slot) (best : Option (Slot × Nat)) (s : Slot),
      pickGo g wl crosses asg used l best = some s →
      ((s ∈ l ∧ assigned asg s.id = false) ∨ ∃ bs, best = some (s, bs)) := by
  intro l
  induction l with
  | nil =>
      intro best s h
      cases best with
      | none => simp [pickGo] at h
      | some b =>
          simp only [pickGo, Option.map_some'] at h
          obtain ⟨b1, b2⟩ := b
          right
          exact ⟨b2, by
            simp only [Option.some.injEq] at h ⊢
            rw [h]⟩
  | cons t rest ih =>
      intro best s h
      by_cases ha : assigned asg t.id
      · rw [show pickGo g wl crosses asg used (t :: rest) best =
            pickGo g wl crosses asg used rest best from by
          simp [pickGo, ha]] at h
        rcases ih best s h with ⟨h1, h2⟩ | h1
        · exact Or.inl ⟨List.mem_cons_of_mem t h1, h2⟩
        · exact Or.inr h1
      · by_cases hz : (domainFor g wl crosses asg used t).length = 0
        · rw [show pickGo g wl crosses asg used (t :: rest) best =
              some t from by simp [pickGo, ha, hz]] at h
          have : t = s := by simpa using h
          exact Or.inl ⟨this ▸ List.mem_cons_self t rest, this ▸ (by
            simpa using ha)⟩
        · have hstep : pickGo g wl crosses asg used (t :: rest) best =
              pickGo g wl crosses asg used rest
                (bestUpd t (domainFor g wl crosses asg used t).length
                  best) := by
            simp [pickGo, ha, hz]
          rw [hstep] at h
          rcases ih _ s h with ⟨h1, h2⟩ | ⟨bs, h1⟩
          · exact Or.inl ⟨List.mem_cons_of_mem t h1, h2⟩
          · cases best with
            | none =>
                simp only [bestUpd, Option.some.injEq, Prod.mk.injEq] at h1
                exact Or.inl ⟨h1.1 ▸ List.mem_cons_self t rest,
                  h1.1 ▸ (by simpa using ha)⟩
            | some bp =>
                by_cases hlt : (domainFor g wl crosses asg used t).length <
                    bp.2
                · rw [show bestUpd t (domainFor g wl crosses asg used
                      t).length (some bp) = some (t, (domainFor g wl crosses
                      asg used t).length) from by simp [bestUpd, hlt]] at h1
                  simp only [Option.some.injEq, Prod.mk.injEq] at h1
                  exact Or.inl ⟨h1.1 ▸ List.mem_cons_self t rest,
                    h1.1 ▸ (by simpa using ha)⟩
                · rw [show bestUpd t (domainFor g wl crosses asg used
                      t).length (some bp) = some bp from by
                    simp [bestUpd, hlt]] at h1
                  obtain ⟨bp1, bp2⟩ := bp
                  simp only [Option.some.injEq, Prod.mk.injEq] at h1
                  exact Or.inr ⟨bp2, by rw [h1.1]⟩

theorem pickGo_skip (g : Grid) (wl : List Word) (crosses : List Cross)
    (asg : Asg) (used : List Word) (pre l : List Slot)
    (hpre : ∀ t ∈ pre, assigned asg t.id = true) (best : Option (Slot × Nat)) :
    pickGo g wl crosses asg used (pre ++ l) best =
      pickGo g wl crosses asg used l best := by
  induction pre with
  | nil => rfl
  | cons t pre ih =>
      have ht := hpre t (List.mem_cons_self t pre)
      rw [show pickGo g wl crosses asg used ((t :: pre) ++ l) best =
          pickGo g wl crosses asg used (pre ++ l) best from by
        simp [pickGo, ht]]
      exact ih (fun u hu => hpre u (List.mem_cons_of_mem t hu))

/-- The scan returns the first unassigned slot with an empty domain,
whatever the best seen so far. -/
theorem pickGo_first_empty (g : Grid) (wl : List Word) (crosses : List Cross)
    (asg : Asg) (used : List Word) :
    ∀ (l1 : List Slot) (s : Slot) (l2 : List Slot)
      (best : Option (Slot × Nat)),
      assigned asg s.id = false →
      (domainFor g wl crosses asg used s).length = 0 →
      (∀ t ∈ l1, assigned asg t.id = false →
        (domainFor g wl crosses asg used t).length ≠ 0) →
      pickGo g wl crosses asg used (l1 ++ s :: l2) best = some s := by
  intro l1
  induction l1 with
  | nil =>
      intro s l2 best hs hz _
      simp [pickGo, hs, hz]
  | cons t l1 ih =>
      intro s l2 best hs hz hl1
      by_cases ha : assigned asg t.id
      · rw [show pickGo g wl crosses asg used ((t :: l1) ++ s :: l2) best =
            pickGo g wl crosses asg used (l1 ++ s :: l2) best from by
          simp [pickGo, ha]]
        exact ih s l2 best hs hz
          (fun u hu => hl1 u (List.mem_cons_of_mem t hu))
      · have hnz := hl1 t (List.mem_cons_self t l1) (by simp [ha])
        rw [show pickGo g wl crosses asg used ((t :: l1) ++ s :: l2) best =
            pickGo g wl crosses asg used (l1 ++ s :: l2)
              (bestUpd t (domainFor g wl crosses asg used t).length best)
            from by simp [pickGo, ha, hnz]]
        exact ih s l2 _ hs hz
          (fun u hu => hl1 u (List.mem_cons_of_mem t hu))

/-- Once a best slot is held and no empty domain remains, the scan is the
pure minimum computation `pickMin`. -/
theorem pickGo_eq_pickMin (g : Grid) (wl : List Word) (crosses : List Cross)
    (asg : Asg) (used : List Word) :
    ∀ (l : List Slot) (b : Slot),
      (∀ t ∈ l, assigned asg t.id = false →
        (domainFor g wl crosses asg used t).length ≠ 0) →
      pickGo g wl crosses asg used l
          (some (b, (domainFor g wl crosses asg used b).length)) =
        some (pickMin g wl crosses asg used l b) := by
  intro l
  induction l with
  | nil =>
      intro b _
      rfl
  | cons t rest ih =>
      intro b hno
      by_cases ha : assigned asg t.id
      · rw [show pickGo g wl crosses asg used (t :: rest)
            (some (b, (domainFor g wl crosses asg used b).length)) =
            pickGo g wl crosses asg used rest
              (some (b, (domainFor g wl crosses asg used b).length)) from by
          simp [pickGo, ha]]
        rw [show pickMin g wl crosses asg used (t :: rest) b =
            pickMin g wl crosses asg used rest b from by
          simp [pickMin, ha]]
        exact ih b (fun u hu => hno u (List.mem_cons_of_mem t hu))
      · have hnz := hno t (List.mem_cons_self t rest) (by simp [ha])
        by_cases hlt : (domainFor g wl crosses asg used t).length <
            (domainFor g wl crosses asg used b).length
        · rw [show pickGo g wl crosses asg used (t :: rest)
              (some (b, (domainFor g wl crosses asg used b).length)) =
              pickGo g wl crosses asg used rest
                (some (t, (domainFor g wl crosses asg used t).length))
              from by simp [pickGo, bestUpd, ha, hnz, hlt]]
          rw [show pickMin g wl crosses asg used (t :: rest) b =
              pickMin g wl crosses asg used rest t from by
            simp [pickMin, ha, hlt]]
          exact ih t (fun u hu => hno u (List.mem_cons_of_mem t hu))
        · rw [show pickGo g wl crosses asg used (t :: rest)
              (some (b, (domainFor g wl crosses asg used b).length)) =
              pickGo g wl crosses asg used rest
                (some (b, (domainFor g wl crosses asg used b).length))
              from by simp [pickGo, bestUpd, ha, hnz, hlt]]
          rw [show pickMin g wl crosses asg used (t :: rest) b =
              pickMin g wl crosses asg used rest b from by
            simp [pickMin, ha, hlt]]
          exact ih b (fun u hu => hno u (List.mem_cons_of_mem t hu))

/-- What `pickMin` computes: either the incumbent survives as a weak minimum
(ties keep the incumbent), or the first strictly smaller slot wins and is a
weak minimum of the rest. -/
theorem pickMin_spec (g : Grid) (wl : List Word) (crosses : List Cross)
    (asg : Asg) (used : List Word) :
    ∀ (l : List Slot) (b : Slot),
      (pickMin g wl crosses asg used l b = b ∧
        ∀ t ∈ l, assigned asg t.id = false →
          (domainFor g wl crosses asg used b).length ≤
            (domainFor g wl crosses asg used t).length) ∨
      (∃ l1 l2, l = l1 ++ pickMin g wl crosses asg used l b :: l2 ∧
        assigned asg (pickMin g wl crosses asg used l b).id = false ∧
        (domainFor g wl crosses asg used
          (pickMin g wl crosses asg used l b)).length <
          (domainFor g wl crosses asg used b).length ∧
        (∀ t ∈ l1, assigned asg t.id = false →
          (domainFor g wl crosses asg used
            (pickMin g wl crosses asg used l b)).length <
            (domainFor g wl crosses asg used t).length) ∧
        (∀ t ∈ l, assigned asg t.id = false →
          (domainFor g wl crosses asg used
            (pickMin g wl crosses asg used l b)).length ≤
            (domainFor g wl crosses asg used t).length)) := by
  intro l
  induction l with
  | nil =>
      intro b
      exact Or.inl ⟨rfl, by simp⟩
  | cons t rest ih =>
      intro b
      by_cases ha : assigned asg t.id
      · have hstep : pickMin g wl crosses asg used (t :: rest) b =
            pickMin g wl crosses asg used rest b := by
          simp [pickMin, ha]
        rw [hstep]
        rcases ih b with ⟨h1, h2⟩ | ⟨l1, l2, hsplit, hun, hlt, hfirst, hmin⟩
        · refine Or.inl ⟨h1, ?_⟩
          intro u hu hun
          rcases List.mem_cons.mp hu with rfl | hu
          · rw [ha] at hun
            exact absurd hun (by simp)
          · exact h2 u hu hun
        · refine Or.inr ⟨t :: l1, l2, congrArg (fun l => t :: l) hsplit,
            hun, hlt, ?_, ?_⟩
          · intro u hu hunas
            rcases List.mem_cons.mp hu with rfl | hu
            · rw [ha] at hunas
              exact absurd hunas (by simp)
            · exact hfirst u hu hunas
          · intro u hu hunas
            rcases List.mem_cons.mp hu with rfl | hu
            · rw [ha] at hunas
              exact absurd hunas (by simp)
            · exact hmin u hu hunas
      · by_cases hlt : (domainFor g wl crosses asg used t).length <
            (domainFor g wl crosses asg used b).length
        · have hstep : pickMin g wl crosses asg used (t :: rest) b =
              pickMin g wl crosses asg used rest t := by
            simp [pickMin, ha, hlt]
          rw [hstep]
          rcases ih t with ⟨h1, h2⟩ | ⟨l1, l2, hsplit, hun, hlt2, hfirst,
            hmin⟩
          · refine Or.inr ⟨[], rest, by rw [h1]; simp, by rw [h1]; simp [ha],
              by rw [h1]; exact hlt, by simp, ?_⟩
            intro u hu hunas
            rcases List.mem_cons.mp hu with rfl | hu
            · rw [h1]
            · rw [h1]
              exact h2 u hu hunas
          · refine Or.inr ⟨t :: l1, l2, congrArg (fun l => t :: l) hsplit,
              hun, lt_trans hlt2 hlt, ?_, ?_⟩
            · intro u hu hunas
              rcases List.mem_cons.mp hu with rfl | hu
              · exact hlt2
              · exact hfirst u hu hunas
            · intro u hu hunas
              rcases List.mem_cons.mp hu with rfl | hu
              · exact le_of_lt hlt2
              · exact hmin u hu hunas
        · have hstep : pickMin g wl crosses asg used (t :: rest) b =
              pickMin g wl crosses asg used rest b := by
            simp [pickMin, ha, hlt]
          rw [hstep]
          rcases ih b with ⟨h1, h2⟩ | ⟨l1, l2, hsplit, hun, hlt2, hfirst,
            hmin⟩
          · refine Or.inl ⟨h1, ?_⟩
            intro u hu hunas
            rcases List.mem_cons.mp hu with rfl | hu
            · omega
            · exact h2 u hu hunas
          · refine Or.inr ⟨t :: l1, l2, congrArg (fun l => t :: l) hsplit,
              hun, hlt2, ?_, ?_⟩
            · intro u hu hunas
              rcases List.mem_cons.mp hu with rfl | hu
              · omega
              · exact hfirst u hu hunas
            · intro u hu hunas
              rcases List.mem_cons.mp hu with rfl | hu
              · omega
              · exact hmin u hu hunas

theorem exists_first_unassigned (asg : Asg) :
    ∀ (slots : List Slot), (∃ s ∈ slots, assigned asg s.id = false) →
      ∃ pre s₀ rest, slots = pre ++ s₀ :: rest ∧
        (∀ t ∈ pre, assigned asg t.id = true) ∧
        assigned asg s₀.id = false := by
  intro slots
  induction slots with
  | nil => rintro ⟨s, hs, -⟩; simp at hs
  | cons t rest ih =>
      rintro ⟨s, hs, hun⟩
      by_cases ha : assigned asg t.id
      · have : ∃ s ∈ rest, assigned asg s.id = false := by
          rcases List.mem_cons.mp hs with rfl | hs
          · rw [ha] at hun
            exact absurd hun (by simp)
          · exact ⟨s, hs, hun⟩
        obtain ⟨pre, s₀, rest', heq, hpre, hs₀⟩ := ih this
        exact ⟨t :: pre, s₀, rest', by rw [heq]; rfl, by
          intro u hu
          rcases List.mem_cons.mp hu with rfl | hu
          · exact ha
          · exact hpre u hu, hs₀⟩
      · exact ⟨[], t, rest, rfl, by simp, by simp [ha]⟩

/-- MRV selection: with no empty domain among unassigned slots, `pickNext`
returns an unassigned slot of minimum domain size, and every unassigned slot
strictly earlier in the list has a strictly larger domain. -/
theorem pickNext_min {g : Grid} {wl : List Word} {crosses : List Cross}
    {slots : List Slot} {asg : Asg} {used : List Word}
    (hno : ∀ t ∈ slots, assigned asg t.id = false →
      (domainFor g wl crosses asg used t).length ≠ 0)
    {s : Slot} (hs : pickNext g wl crosses slots asg used = some s) :
    s ∈ slots ∧ assigned asg s.id = false ∧
    (∀ t ∈ slots, assigned asg t.id = false →
      (domainFor g wl crosses asg used s).length ≤
        (domainFor g wl crosses asg used t).length) ∧
    ∃ l1 l2, slots = l1 ++ s :: l2 ∧
      ∀ t ∈ l1, assigned asg t.id = false →
        (domainFor g wl crosses asg used s).length <
          (domainFor g wl crosses asg used t).length := by
  have hex : ∃ t ∈ slots, assigned asg t.id = false := by
    by_contra hc
    push_neg at hc
    have : ∀ t ∈ slots, assigned asg t.id = true := by
      intro t ht
      have := hc t ht
      cases h : assigned asg t.id
      · exact absurd h this
      · rfl
    rw [(pickNext_none_iff g wl crosses slots asg used).mpr this] at hs
    exact absurd hs (by simp)
  obtain ⟨pre, s₀, rest, heq, hpre, hs₀⟩ := exists_first_unassigned asg
    slots hex
  have hnz₀ : (domainFor g wl crosses asg used s₀).length ≠ 0 :=
    hno s₀ (by rw [heq]; exact List.mem_append.mpr (Or.inr
      (List.mem_cons_self s₀ rest))) hs₀
  have hnorest : ∀ t ∈ rest, assigned asg t.id = false →
      (domainFor g wl crosses asg used t).length ≠ 0 := by
    intro t ht
    exact hno t (by
      rw [heq]
      exact List.mem_append.mpr (Or.inr (List.mem_cons_of_mem s₀ ht)))
  have hrun : pickNext g wl crosses slots asg used =
      some (pickMin g wl crosses asg used rest s₀) := by
    rw [pickNext, heq, pickGo_skip g wl crosses asg used pre _ hpre]
    rw [show pickGo g wl crosses asg used (s₀ :: rest) none =
        pickGo g wl crosses asg used rest
          (some (s₀, (domainFor g wl crosses asg used s₀).length)) from by
      simp [pickGo, bestUpd, hs₀, hnz₀]]
    exact pickGo_eq_pickMin g wl crosses asg used rest s₀ hnorest
  rw [hrun] at hs
  have hsval : s = pickMin g wl crosses asg used rest s₀ :=
    (Option.some_inj.mp hs).symm
  rcases pickMin_spec g wl crosses asg used rest s₀ with
    ⟨h1, h2⟩ | ⟨l1, l2, hsplit, hun, hlt, hfirst, hmin⟩
  · rw [h1] at hsval
    subst hsval
    refine ⟨by rw [heq]; exact List.mem_append.mpr (Or.inr
      (List.mem_cons_self s rest)), hs₀, ?_, pre, rest, heq, ?_⟩
    · intro t ht hunas
      rw [heq] at ht
      rcases List.mem_append.mp ht with ht | ht
      · rw [hpre t ht] at hunas
        exact absurd hunas (by simp)
      · rcases List.mem_cons.mp ht with rfl | ht
        · exact le_rfl
        · exact h2 t ht hunas
    · intro t ht hunas
      rw [hpre t ht] at hunas
      exact absurd hunas (by simp)
  · rw [← hsval] at hsplit hun hlt hfirst hmin
    refine ⟨?_, hun, ?_, pre ++ s₀ :: l1, l2, ?_, ?_⟩
    · rw [heq, hsplit]
      refine List.mem_append.mpr (Or.inr ?_)
      refine List.mem_cons_of_mem s₀ ?_
      exact List.mem_append.mpr (Or.inr (List.mem_cons_self s l2))
    · intro t ht hunas
      rw [heq] at ht
      rcases List.mem_append.mp ht with ht | ht
      · rw [hpre t ht] at hunas
        exact absurd hunas (by simp)
      · rcases List.mem_cons.mp ht with rfl | ht
        · exact le_of_lt hlt
        · exact hmin t ht hunas
    · rw [heq, hsplit]
      simp
    · intro t ht hunas
      rcases List.mem_append.mp ht with ht | ht
      · rw [hpre t ht] at hunas
        exact absurd hunas (by simp)
      · rcases List.mem_cons.mp ht with rfl | ht
        · exact hlt
        · exact hfirst t ht hunas

/-- The empty-domain short-circuit of `pickNext`, at the top level. -/
theorem pickNext_first_empty {g : Grid} {wl : List Word}
    {crosses : List Cross} {slots : List Slot} {asg : Asg}
    {used : List Word} {l1 : List Slot} {s : Slot} {l2 : List Slot}
    (heq : slots = l1 ++ s :: l2) (hs : assigned asg s.id = false)
    (hz : (domainFor g wl crosses asg used s).length = 0)
    (hl1 : ∀ t ∈ l1, assigned asg t.id = false →
      (domainFor g wl crosses asg used t).length ≠ 0) :
    pickNext g wl crosses slots asg used = some s := by
  rw [pickNext, heq]
  exact pickGo_first_empty g wl crosses asg used l1 s l2 none hs hz hl1

/-! ### The search invariant of `backtrack` -/

/-- Invariant of the partial assignment and the used-word set along the
search: one binding per slot id, all bound to distinct list words of the
right length matching fixed letters, `used` mirroring the bound words, and
every fully-bound crossing constraint satisfied. -/
def Inv (g : Grid) (wl : List Word) (asg : Asg) (used : List Word) : Prop :=
  (asg.map Prod.fst).Nodup ∧
  (asg.map Prod.snd).Nodup ∧
  (∀ p ∈ asg, ∃ s, s ∈ computeSlots g ∧ s.id = p.1 ∧ p.2 ∈ wl ∧
    p.2.length = s.len ∧ fixedOK g s p.2 = true) ∧
  (∀ w, w ∈ used ↔ ∃ i, (i, w) ∈ asg) ∧
  (∀ c ∈ buildCrosses (computeSlots g), ∀ wa wb,
    alookup asg c.a = some wa → alookup asg c.b = some wb →
    wa[c.ia]? = wb[c.ib]?)

/-- Under the invariant every bound word is non-empty, so the JS truthiness
test agrees with plain definedness of the binding. -/
theorem inv_assigned {g : Grid} {wl : List Word} {asg : Asg}
    {used : List Word} (h : Inv g wl asg used) (i : Nat) :
    assigned asg i = (alookup asg i).isSome := by
  rw [assigned]
  rcases hl : alookup asg i with _ | w
  · simp
  · simp only [Option.isSome_some]
    obtain ⟨s, hs, -, -, hlen, -⟩ := h.2.2.1 (i, w) (alookup_mem hl)
    have h2 := computeSlots_len_ge_two hs
    cases w with
    | nil => simp at hlen; omega
    | cons c cs => rfl

/-- Bound words are never empty under the invariant. -/
theorem inv_value_ne_nil {g : Grid} {wl : List Word} {asg : Asg}
    {used : List Word} (h : Inv g wl asg used) {i : Nat} {w : Word}
    (hl : alookup asg i = some w) : w ≠ [] := by
  obtain ⟨s, hs, -, -, hlen, -⟩ := h.2.2.1 (i, w) (alookup_mem hl)
  have h2 := computeSlots_len_ge_two hs
  intro hc
  subst hc
  simp at hlen
  omega

/-- Extending the assignment with a domain word preserves the invariant. -/
theorem inv_step {g : Grid} {wl : List Word} {asg : Asg} {used : List Word}
    (hInv : Inv g wl asg used) {s : Slot} (hs : s ∈ computeSlots g)
    (hun : alookup asg s.id = none) {w : Word}
    (hw : w ∈ domainFor g wl (buildCrosses (computeSlots g)) asg used s) :
    Inv g wl ((s.id, w) :: asg) (w :: used) := by
  obtain ⟨hndk, hndv, hvals, husedEq, hcross⟩ := hInv
  rw [mem_domainFor] at hw
  obtain ⟨hwl, hwlen, hwused, hfx, hcrOK⟩ := hw
  refine ⟨?_, ?_, ?_, ?_, ?_⟩
  · simp only [List.map_cons, List.nodup_cons]
    refine ⟨?_, hndk⟩
    intro hc
    obtain ⟨p, hp, hpe⟩ := List.mem_map.mp hc
    refine alookup_eq_none.mp hun p.2 ?_
    have : p = (s.id, p.2) := by
      obtain ⟨p1, p2⟩ := p
      simp only at hpe
      rw [hpe]
    rw [← this]
    exact hp
  · simp only [List.map_cons, List.nodup_cons]
    refine ⟨?_, hndv⟩
    intro hc
    obtain ⟨p, hp, hpe⟩ := List.mem_map.mp hc
    refine hwused ((husedEq w).mpr ⟨p.1, ?_⟩)
    have : p = (p.1, w) := by
      obtain ⟨p1, p2⟩ := p
      simp only at hpe
      rw [hpe]
    rw [← this]
    exact hp
  · intro p hp
    rcases List.mem_cons.mp hp with rfl | hp
    · exact ⟨s, hs, rfl, hwl, hwlen, hfx⟩
    · exact hvals p hp
  · intro w'
    simp only [List.mem_cons]
    constructor
    · rintro (rfl | hw')
      · exact ⟨s.id, Or.inl rfl⟩
      · obtain ⟨i, hi⟩ := (husedEq w').mp hw'
        exact ⟨i, Or.inr hi⟩
    · rintro ⟨i, heq | hi⟩
      · left
        exact ((Prod.mk.injEq ..).mp heq).2
      · right
        exact (husedEq w').mpr ⟨i, hi⟩
  · intro c hc wa wb hwa hwb
    obtain ⟨sa, sb, hsa, hsb, hsaid, hsbid, hab, hialt, hiblt, -⟩ :=
      buildCrosses_shape hc
    have habne : c.a ≠ c.b := by
      intro he
      exact hab (computeSlots_id_inj hsa hsb (by rw [hsaid, hsbid, he]))
    rw [alookup_cons] at hwa hwb
    by_cases hca : s.id = c.a
    · rw [if_pos hca] at hwa
      have hcb : ¬ s.id = c.b := fun hc' => habne (hca ▸ hc' ▸ rfl)
      rw [if_neg hcb] at hwb
      have href : ((c.b, c.ia, c.ib) : Nat × Nat × Nat) ∈
          crossRefs (buildCrosses (computeSlots g)) s.id := by
        refine mem_crossRefs.mpr (Or.inl ?_)
        have : (⟨s.id, c.ia, c.b, c.ib⟩ : Cross) = c := by
          obtain ⟨ca, cia, cb, cib⟩ := c
          simp only at hca ⊢
          rw [hca]
        rw [this]
        exact hc
      have := (crossOK_iff.mp hcrOK) (c.b, c.ia, c.ib) href wb hwb
      rcases this with hnil | heq
      · exact absurd hnil (inv_value_ne_nil ⟨hndk, hndv, hvals, husedEq,
          hcross⟩ hwb)
      · rw [← Option.some_inj.mp hwa]
        exact heq
    · rw [if_neg hca] at hwa
      by_cases hcb : s.id = c.b
      · rw [if_pos hcb] at hwb
        have href : ((c.a, c.ib, c.ia) : Nat × Nat × Nat) ∈
            crossRefs (buildCrosses (computeSlots g)) s.id := by
          refine mem_crossRefs.mpr (Or.inr ?_)
          have : (⟨c.a, c.ia, s.id, c.ib⟩ : Cross) = c := by
            obtain ⟨ca, cia, cb, cib⟩ := c
            simp only at hcb ⊢
            rw [hcb]
          rw [this]
          exact hc
        have := (crossOK_iff.mp hcrOK) (c.a, c.ib, c.ia) href wa hwa
        rcases this with hnil | heq
        · exact absurd hnil (inv_value_ne_nil ⟨hndk, hndv, hvals, husedEq,
            hcross⟩ hwa)
        · rw [← Option.some_inj.mp hwb]
          exact heq.symm
      · rw [if_neg hcb] at hwb
        exact hcross c hc wa wb hwa hwb

/-! ### Soundness and completeness of `backtrack` -/

theorem foldr_firstSome_eq_some {dom : List Word} {F : Word → Option Asg}
    {m : Asg}
    (h : dom.foldr (fun w acc =>
      match F w with
      | some r => some r
      | none => acc) none = some m) :
    ∃ w ∈ dom, F w = some m := by
  induction dom with
  | nil => simp at h
  | cons w dom ih =>
      rw [List.foldr_cons] at h
      rcases hF : F w with _ | r
      · rw [hF] at h
        obtain ⟨w', hw', hFw'⟩ := ih h
        exact ⟨w', List.mem_cons_of_mem w hw', hFw'⟩
      · rw [hF] at h
        have h2 : some r = some m := h
        exact ⟨w, List.mem_cons_self w dom, hF.trans h2⟩

theorem foldr_firstSome_isSome {dom : List Word} {F : Word → Option Asg}
    (h : ∃ w ∈ dom, (F w).isSome) :
    (dom.foldr (fun w acc =>
      match F w with
      | some r => some r
      | none => acc) none).isSome := by
  induction dom with
  | nil =>
      obtain ⟨w, hw, -⟩ := h
      simp at hw
  | cons w dom ih =>
      rw [List.foldr_cons]
      rcases hF : F w with _ | r
      · obtain ⟨w', hw', hFw'⟩ := h
        rcases List.mem_cons.mp hw' with rfl | hw'
        · rw [hF] at hFw'
          simp at hFw'
        · exact ih ⟨w', hw', hFw'⟩
      · simp

theorem valid_of_inv_total {g : Grid} {wl : List Word} {asg : Asg}
    {used : List Word} (hInv : Inv g wl asg used)
    (hall : ∀ s ∈ computeSlots g, assigned asg s.id = true) :
    ValidMapping g wl asg := by
  obtain ⟨hndk, hndv, hvals, husedEq, hcross⟩ := hInv
  have hsome : ∀ s ∈ computeSlots g, ∃ w, alookup asg s.id = some w := by
    intro s hs
    have := hall s hs
    rw [inv_assigned ⟨hndk, hndv, hvals, husedEq, hcross⟩ s.id] at this
    rcases hl : alookup asg s.id with _ | w
    · rw [hl] at this
      simp at this
    · exact ⟨w, rfl⟩
  refine ⟨?_, ?_, ?_⟩
  · intro s hs
    obtain ⟨w, hw⟩ := hsome s hs
    obtain ⟨s', hs', hs'id, hwwl, hwlen, hfx⟩ := hvals (s.id, w)
      (alookup_mem hw)
    have : s' = s := computeSlots_id_inj hs' hs hs'id
    subst this
    exact ⟨w, hw, hwwl, hwlen, fixedOK_iff.mp hfx⟩
  · intro s hs t ht hne ws wt hws hwt
    intro hc
    subst hc
    have h1 := alookup_mem hws
    have h2 := alookup_mem hwt
    have := List.inj_on_of_nodup_map hndv h1 h2 (by rfl)
    exact hne ((Prod.mk.injEq ..).mp this).1
  · intro c hc
    obtain ⟨sa, sb, hsa, hsb, hsaid, hsbid, -, hialt, hiblt, -⟩ :=
      buildCrosses_shape hc
    obtain ⟨wa, hwa⟩ := hsome sa hsa
    obtain ⟨wb, hwb⟩ := hsome sb hsb
    rw [hsaid] at hwa
    rw [hsbid] at hwb
    obtain ⟨sa', hsa', hsa'id, -, hwalen, -⟩ := hvals (c.a, wa)
      (alookup_mem hwa)
    have hseq : sa' = sa := computeSlots_id_inj hsa' hsa (by
      rw [hsaid]
      exact hsa'id)
    have hwalen' : wa.length = sa.len := by
      rw [← hseq]
      exact hwalen
    have hia : c.ia < wa.length := by
      rw [hwalen']
      exact hialt
    have heq := hcross c hc wa wb hwa hwb
    refine ⟨wa, wb, wa[c.ia], hwa, hwb, List.getElem?_eq_getElem hia, ?_⟩
    rw [← heq]
    exact List.getElem?_eq_getElem hia

theorem backtrack_sound {g : Grid} {wl : List Word} :
    ∀ (fuel : Nat) (asg : Asg) (used : List Word) (m : Asg),
      Inv g wl asg used →
      backtrack g wl (computeSlots g) (buildCrosses (computeSlots g)) fuel
        asg used = some m →
      ValidMapping g wl m := by
  intro fuel
  induction fuel with
  | zero =>
      intro asg used m _ h
      simp [backtrack] at h
  | succ fuel ih =>
      intro asg used m hInv h
      rw [backtrack] at h
      rcases hpick : pickNext g wl (buildCrosses (computeSlots g))
          (computeSlots g) asg used with _ | s
      · rw [hpick] at h
        have hm : asg = m := Option.some_inj.mp h
        subst hm
        exact valid_of_inv_total hInv
          ((pickNext_none_iff ..).mp hpick)
      · rw [hpick] at h
        obtain ⟨w, hw, hrec⟩ := foldr_firstSome_eq_some h
        obtain ⟨hmem, hunas⟩ | ⟨bs, hbs⟩ :=
          pickGo_some_mem g wl (buildCrosses (computeSlots g)) asg used
            (computeSlots g) none s hpick
        · have hun : alookup asg s.id = none := by
            have := inv_assigned hInv s.id
            rw [hunas] at this
            rcases hl : alookup asg s.id with _ | w'
            · rfl
            · rw [hl] at this
              simp at this
          exact ih ((s.id, w) :: asg) (w :: used) m
            (inv_step hInv hmem hun hw) hrec
        · exact absurd hbs (by simp)

theorem solveJS_sound {g : Grid} {wl : List Word} {m : Asg}
    (h : solveJS g wl = some m) : ValidMapping g wl m := by
  rw [solveJS] at h
  by_cases hne : computeSlots g = []
  · rw [if_pos hne] at h
    exact absurd h (by simp)
  · rw [if_neg hne] at h
    refine backtrack_sound ((computeSlots g).length + 1) [] [] m ?_ h
    exact ⟨by simp, by simp, by simp, by simp [alookup], by
      intro c hc wa wb hwa hwb
      simp [alookup] at hwa⟩

theorem inv_unassigned_none {g : Grid} {wl : List Word} {asg : Asg}
    {used : List Word} (hInv : Inv g wl asg used) {i : Nat}
    (h : assigned asg i = false) : alookup asg i = none := by
  have := inv_assigned hInv i
  rw [h] at this
  rcases hl : alookup asg i with _ | w
  · rfl
  · rw [hl] at this
    simp at this

theorem filter_ne_length {L : List Slot} (hnd : L.Nodup) {s : Slot}
    (hs : s ∈ L) (hinj : ∀ t ∈ L, t.id = s.id → t = s) :
    (L.filter (fun t => !(decide (t.id = s.id)))).length + 1 = L.length := by
  induction L with
  | nil => simp at hs
  | cons t L ih =>
      rw [List.nodup_cons] at hnd
      by_cases ht : t = s
      · subst ht
        rw [List.filter_cons_of_neg (by simp)]
        rw [show L.filter (fun u => !(decide (u.id = t.id))) = L from ?_]
        · simp
        · refine List.filter_eq_self.mpr ?_
          intro u hu
          simp only [Bool.not_eq_true', decide_eq_false_iff_not]
          intro hc
          have := hinj u (List.mem_cons_of_mem t hu) hc
          rw [this] at hu
          exact hnd.1 hu
      · have hsL : s ∈ L := by
          rcases List.mem_cons.mp hs with rfl | h
          · exact absurd rfl ht
          · exact h
        have htid : ¬ (t.id = s.id) := fun hc =>
          ht (hinj t (List.mem_cons_self t L) hc)
        rw [List.filter_cons_of_pos (by simp [htid])]
        simp only [List.length_cons]
        rw [ih hnd.2 hsL
          (fun u hu hc => hinj u (List.mem_cons_of_mem t hu) hc)]

theorem unassigned_count_step {g : Grid} {asg : Asg} {s : Slot}
    (hnd : ((computeSlots g).map Slot.id).Nodup) (hs : s ∈ computeSlots g)
    (hun : alookup asg s.id = none) (w : Word) :
    ((computeSlots g).filter
      (fun t => (alookup ((s.id, w) :: asg) t.id).isNone)).length + 1 =
    ((computeSlots g).filter (fun t => (alookup asg t.id).isNone)).length
    := by
  have hpred : ∀ t : Slot, ((alookup ((s.id, w) :: asg) t.id).isNone) =
      ((alookup asg t.id).isNone && !(decide (t.id = s.id))) := by
    intro t
    rw [alookup_cons]
    by_cases h : s.id = t.id
    · rw [if_pos h]
      have h2 : t.id = s.id := h.symm
      simp [h2]
    · rw [if_neg h]
      have h2 : ¬ (t.id = s.id) := fun hc => h hc.symm
      simp [h2]
  rw [show (computeSlots g).filter
      (fun t => (alookup ((s.id, w) :: asg) t.id).isNone) =
      ((computeSlots g).filter (fun t => (alookup asg t.id).isNone)).filter
        (fun t => !(decide (t.id = s.id))) from by
    rw [List.filter_filter]
    exact List.filter_congr (fun t _ => (hpred t).trans
      (Bool.and_comm _ _))]
  refine filter_ne_length ?_ ?_ ?_
  · exact (List.Nodup.of_map Slot.id hnd).sublist (List.filter_sublist _)
  · refine List.mem_filter.mpr ⟨hs, by simp [hun]⟩
  · intro t ht htid
    exact List.inj_on_of_nodup_map hnd (List.mem_of_mem_filter ht) hs htid

theorem backtrack_complete {g : Grid} {wl : List Word} {σ : Nat → Word}
    (hsol : IsSolution g wl σ) :
    ∀ (fuel : Nat) (asg : Asg) (used : List Word),
      Inv g wl asg used → (∀ p ∈ asg, p.2 = σ p.1) →
      ((computeSlots g).filter
        (fun t => (alookup asg t.id).isNone)).length < fuel →
      (backtrack g wl (computeSlots g) (buildCrosses (computeSlots g)) fuel
        asg used).isSome := by
  intro fuel
  induction fuel with
  | zero =>
      intro asg used _ _ hcount
      omega
  | succ fuel ih =>
      intro asg used hInv hExt hcount
      rw [backtrack]
      rcases hpick : pickNext g wl (buildCrosses (computeSlots g))
          (computeSlots g) asg used with _ | s
      · simp
      · obtain ⟨hmem, hunas⟩ | ⟨bs, hbs⟩ :=
          pickGo_some_mem g wl (buildCrosses (computeSlots g)) asg used
            (computeSlots g) none s hpick
        · have hun : alookup asg s.id = none := inv_unassigned_none hInv
            hunas
          have hσdom : σ s.id ∈ domainFor g wl
              (buildCrosses (computeSlots g)) asg used s := by
            rw [mem_domainFor]
            obtain ⟨hwl, hlen, hfix⟩ := hsol.1 s hmem
            refine ⟨hwl, hlen, ?_, fixedOK_iff.mpr hfix, ?_⟩
            · intro hus
              obtain ⟨i, hi⟩ := (hInv.2.2.2.1 (σ s.id)).mp hus
              obtain ⟨t, ht, htid, -, -, -⟩ := hInv.2.2.1 (i, σ s.id) hi
              by_cases hieq : i = s.id
              · subst hieq
                rw [mem_alookup hInv.1 hi] at hun
                exact absurd hun (by simp)
              · have hveq : σ s.id = σ i := hExt (i, σ s.id) hi
                have hne : s.id ≠ t.id := by
                  rw [htid]
                  exact fun hc => hieq hc.symm
                exact hsol.2.1 s hmem t ht hne (by rw [htid]; exact hveq)
            · refine crossOK_iff.mpr ?_
              rintro ⟨o, it, io⟩ ht other hother
              right
              have hoσ : other = σ o := hExt (o, other) (alookup_mem hother)
              rcases mem_crossRefs.mp ht with hcr | hcr
              · have := hsol.2.2 _ hcr
                rw [hoσ]
                exact this
              · have := hsol.2.2 _ hcr
                rw [hoσ]
                exact this.symm
          refine foldr_firstSome_isSome ⟨σ s.id, hσdom, ?_⟩
          refine ih ((s.id, σ s.id) :: asg) (σ s.id :: used)
            (inv_step hInv hmem hun hσdom) ?_ ?_
          · intro p hp
            rcases List.mem_cons.mp hp with rfl | hp
            · rfl
            · exact hExt p hp
          · have hnd : ((computeSlots g).map Slot.id).Nodup := by
              rw [computeSlots_map_id]
              exact List.nodup_range _
            have hstep := unassigned_count_step hnd hmem hun (σ s.id)
            omega
        · exact absurd hbs (by simp)

theorem solveJS_complete {g : Grid} {wl : List Word}
    (hne : computeSlots g ≠ []) {σ : Nat → Word}
    (hsol : IsSolution g wl σ) : (solveJS g wl).isSome := by
  rw [solveJS]
  simp only [if_neg hne]
  refine backtrack_complete hsol ((computeSlots g).length + 1) [] []
    ⟨by simp, by simp, by simp, by simp [alookup], by
      intro c hc wa wb hwa hwb
      simp [alookup] at hwa⟩ (by simp) ?_
  rw [show (computeSlots g).filter
      (fun t => (alookup [] t.id).isNone) = computeSlots g from
    List.filter_eq_self.mpr (fun a _ => by simp [alookup])]
  omega

theorem solveJS_none_iff {g : Grid} {wl : List Word}
    (hne : computeSlots g ≠ []) :
    solveJS g wl = none ↔ ¬ ∃ σ : Nat → Word, IsSolution g wl σ := by
  constructor
  · rintro h ⟨σ, hσ⟩
    have := solveJS_complete hne hσ
    rw [h] at this
    simp at this
  · intro h
    rcases hm : solveJS g wl with _ | m
    · rfl
    · exfalso
      refine h ⟨fun i => (alookup m i).getD [], ?_, ?_, ?_⟩
      · intro s hs
        obtain ⟨w, hw, hwl, hlen, hfix⟩ := (solveJS_sound hm).1 s hs
        simp only [hw, Option.getD_some]
        exact ⟨hwl, hlen, hfix⟩
      · intro s hs t ht hne'
        obtain ⟨ws, hws, -, -, -⟩ := (solveJS_sound hm).1 s hs
        obtain ⟨wt, hwt, -, -, -⟩ := (solveJS_sound hm).1 t ht
        simp only [hws, hwt, Option.getD_some]
        exact (solveJS_sound hm).2.1 s hs t ht hne' ws wt hws hwt
      · intro c hc
        obtain ⟨wa, wb, ch, hwa, hwb, ha, hb⟩ := (solveJS_sound hm).2.2 c hc
        simp only [hwa, hwb, Option.getD_some]
        rw [ha, hb]

/-! ### The projection of a solution onto the grid -/

/-- Equal dimensions, row by row. -/
def SameShape (a b : Grid) : Prop :=
  a.length = b.length ∧ ∀ r, (a.getD r []).length = (b.getD r []).length

theorem getD_updateAt {α : Type} (l : List α) (i : Nat) (f : α → α) (j : Nat)
    (d : α) :
    (updateAt l i f).getD j d = if i = j then ((l[j]?).map f).getD d
      else l.getD j d := by
  rw [List.getD_eq_getElem?_getD, getElem?_updateAt]
  by_cases h : i = j
  · rw [if_pos h, if_pos h]
  · rw [if_neg h, if_neg h, List.getD_eq_getElem?_getD]

theorem setCh_sameShape (g : Grid) (r c : Nat) (ch : Option Char) :
    SameShape (setCh g r c ch) g := by
  refine ⟨updateAt_length g r _, ?_⟩
  intro r'
  rw [setCh, getD_updateAt]
  by_cases h : r = r'
  · rw [if_pos h]
    subst h
    rcases hrow : g[r]? with _ | row
    · rw [List.getD_eq_getElem?_getD, hrow]
      rfl
    · rw [List.getD_eq_getElem?_getD, hrow]
      simp only [Option.map_some', Option.getD_some]
      exact updateAt_length row c _
  · rw [if_neg h]

theorem sameShape_trans {a b c : Grid} (h1 : SameShape a b)
    (h2 : SameShape b c) : SameShape a c :=
  ⟨h1.1.trans h2.1, fun r => (h1.2 r).trans (h2.2 r)⟩

theorem getD_eq_none {α : Type} {l : List α} {i : Nat} (h : l[i]? = none)
    (d : α) : l.getD i d = d := by
  rw [List.getD_eq_getElem?_getD, h]
  rfl

theorem getD_eq_some {α : Type} {l : List α} {i : Nat} {a : α}
    (h : l[i]? = some a) (d : α) : l.getD i d = a := by
  rw [List.getD_eq_getElem?_getD, h]
  rfl

theorem getD_congr {α : Type} {l l' : List α} {i : Nat}
    (h : l[i]? = l'[i]?) (d : α) : l.getD i d = l'.getD i d := by
  rw [List.getD_eq_getElem?_getD, h, ← List.getD_eq_getElem?_getD]

theorem cellAt_of_no_row {g : Grid} {r : Nat} (h : g[r]? = none) (c : Nat) :
    cellAt g r c = blankCell := by
  rw [cellAt, getD_eq_none h]
  simp

theorem cellAt_of_row {g : Grid} {r : Nat} {row : List Cell}
    (h : g[r]? = some row) (c : Nat) :
    cellAt g r c = row.getD c blankCell := by
  rw [cellAt, getD_eq_some h]

theorem cellAt_congr_row {a b : Grid} {r : Nat} (h : a[r]? = b[r]?)
    (c : Nat) : cellAt a r c = cellAt b r c := by
  rcases hb : b[r]? with _ | row
  · rw [cellAt_of_no_row (by rw [h, hb]), cellAt_of_no_row hb]
  · rw [cellAt_of_row (by rw [h, hb]), cellAt_of_row hb]

theorem getElem?_setCh (g : Grid) (r c : Nat) (ch : Option Char)
    (r' : Nat) :
    (setCh g r c ch)[r']? = if r = r' then
      (g[r']?).map (fun row => updateAt row c
        (fun cell => { cell with ch := ch })) else g[r']? :=
  getElem?_updateAt g r _ r'

theorem cellAt_setCh_blocked (g : Grid) (r c : Nat) (ch : Option Char)
    (r' c' : Nat) :
    (cellAt (setCh g r c ch) r' c').blocked = (cellAt g r' c').blocked := by
  by_cases hr : r = r'
  · subst hr
    rcases hrow : g[r]? with _ | row
    · have h1 : (setCh g r c ch)[r]? = none := by
        rw [getElem?_setCh, if_pos rfl, hrow]
        rfl
      rw [cellAt_of_no_row h1, cellAt_of_no_row hrow]
    · have h1 : (setCh g r c ch)[r]? = some (updateAt row c
          (fun cell => { cell with ch := ch })) := by
        rw [getElem?_setCh, if_pos rfl, hrow]
        rfl
      rw [cellAt_of_row h1, cellAt_of_row hrow]
      by_cases hc : c = c'
      · subst hc
        rcases hcell : row[c]? with _ | cell
        · have h2 : (updateAt row c
              (fun cell => { cell with ch := ch }))[c]? = none := by
            rw [getElem?_updateAt, if_pos rfl, hcell]
            rfl
          rw [getD_eq_none h2, getD_eq_none hcell]
        · have h2 : (updateAt row c
              (fun cell => { cell with ch := ch }))[c]? =
              some { cell with ch := ch } := by
            rw [getElem?_updateAt, if_pos rfl, hcell]
            rfl
          rw [getD_eq_some h2, getD_eq_some hcell]
      · have h2 : (updateAt row c
            (fun cell => { cell with ch := ch }))[c']? = row[c']? := by
          rw [getElem?_updateAt, if_neg hc]
        rw [getD_congr h2]
  · exact congrArg Cell.blocked (cellAt_congr_row
      (by rw [getElem?_setCh, if_neg hr]) c')

theorem cellAt_setCh_frame (g : Grid) (r c : Nat) (ch : Option Char)
    {r' c' : Nat} (h : (r, c) ≠ (r', c')) :
    cellAt (setCh g r c ch) r' c' = cellAt g r' c' := by
  by_cases hr : r = r'
  · subst hr
    have hc : ¬ c = c' := fun hc => h (by rw [hc])
    rcases hrow : g[r]? with _ | row
    · have h1 : (setCh g r c ch)[r]? = none := by
        rw [getElem?_setCh, if_pos rfl, hrow]
        rfl
      rw [cellAt_of_no_row h1, cellAt_of_no_row hrow]
    · have h1 : (setCh g r c ch)[r]? = some (updateAt row c
          (fun cell => { cell with ch := ch })) := by
        rw [getElem?_setCh, if_pos rfl, hrow]
        rfl
      rw [cellAt_of_row h1, cellAt_of_row hrow]
      have h2 : (updateAt row c
          (fun cell => { cell with ch := ch }))[c']? = row[c']? := by
        rw [getElem?_updateAt, if_neg hc]
      rw [getD_congr h2]
  · exact cellAt_congr_row (by rw [getElem?_setCh, if_neg hr]) c'

theorem cellAt_setCh_hit (g : Grid) (r c : Nat) (ch : Option Char)
    (hr : r < g.length) (hc : c < (g.getD r []).length) :
    cellAt (setCh g r c ch) r c = { cellAt g r c with ch := ch } := by
  rcases hrow : g[r]? with _ | row
  · rw [List.getElem?_eq_none_iff] at hrow
    omega
  · have hrowD : g.getD r [] = row := getD_eq_some hrow _
    rw [hrowD] at hc
    have h1 : (setCh g r c ch)[r]? = some (updateAt row c
        (fun cell => { cell with ch := ch })) := by
      rw [getElem?_setCh, if_pos rfl, hrow]
      rfl
    have h2 : (updateAt row c (fun cell => { cell with ch := ch }))[c]? =
        some { row[c] with ch := ch } := by
      rw [getElem?_updateAt, if_pos rfl, List.getElem?_eq_getElem hc]
      rfl
    rw [cellAt_of_row h1, getD_eq_some h2, cellAt_of_row hrow,
      getD_eq_some (List.getElem?_eq_getElem hc)]

theorem writeWord_sameShape (acc : Grid) (s : Slot) (w : Word) :
    SameShape (writeWord acc s w) acc := by
  rw [writeWord]
  generalize List.range s.len = ks
  induction ks generalizing acc with
  | nil => exact ⟨rfl, fun r => rfl⟩
  | cons k ks ih =>
      rw [List.foldl_cons]
      exact sameShape_trans (ih _) (setCh_sameShape acc _ _ _)

theorem writeWord_blocked (acc : Grid) (s : Slot) (w : Word) (r' c' : Nat) :
    (cellAt (writeWord acc s w) r' c').blocked =
      (cellAt acc r' c').blocked := by
  rw [writeWord]
  generalize List.range s.len = ks
  induction ks generalizing acc with
  | nil => rfl
  | cons k ks ih =>
      rw [List.foldl_cons, ih]
      exact cellAt_setCh_blocked acc _ _ _ r' c'

theorem writeWord_frame (acc : Grid) (s : Slot) (w : Word) {r' c' : Nat}
    (h : ∀ k < s.len, coordOf s k ≠ (r', c')) :
    cellAt (writeWord acc s w) r' c' = cellAt acc r' c' := by
  rw [writeWord]
  have h' : ∀ k ∈ List.range s.len, coordOf s k ≠ (r', c') := by
    intro k hk
    exact h k (List.mem_range.mp hk)
  generalize hks : List.range s.len = ks
  rw [hks] at h'
  clear hks
  induction ks generalizing acc with
  | nil => rfl
  | cons k ks ih =>
      rw [List.foldl_cons]
      rw [ih _ (fun u hu => h' u (List.mem_cons_of_mem k hu))]
      exact cellAt_setCh_frame acc _ _ _
        (h' k (List.mem_cons_self k ks))

theorem writeWord_hit (g acc : Grid) (s : Slot) (w : Word) {k : Nat}
    (hk : k < s.len) (hshape : SameShape acc g)
    (hr : (coordOf s k).1 < g.length)
    (hc : (coordOf s k).2 < (g.getD (coordOf s k).1 []).length) :
    (cellAt (writeWord acc s w) (coordOf s k).1 (coordOf s k).2).ch =
      w[k]? := by
  rw [writeWord]
  have hmem : k ∈ List.range s.len := List.mem_range.mpr hk
  have hnd : (List.range s.len).Nodup := List.nodup_range _
  generalize hks : List.range s.len = ks
  rw [hks] at hmem hnd
  clear hks hk
  induction ks generalizing acc with
  | nil => simp at hmem
  | cons k' ks ih =>
      rw [List.foldl_cons]
      rw [List.nodup_cons] at hnd
      rcases List.mem_cons.mp hmem with rfl | hmem'
      · -- write k now; the remaining offsets never touch its cell
        have hne : ∀ u ∈ ks, coordOf s u ≠ coordOf s k := by
          intro u hu hc'
          exact hnd.1 ((coordOf_inj s hc') ▸ hu)
        have hrest : ∀ (us : List Nat) (acc' : Grid),
            (∀ u ∈ us, coordOf s u ≠ coordOf s k) →
            cellAt (us.foldl
              (fun a u => setCh a (coordOf s u).1 (coordOf s u).2 w[u]?)
                acc')
              (coordOf s k).1 (coordOf s k).2 =
            cellAt acc' (coordOf s k).1 (coordOf s k).2 := by
          intro us
          induction us with
          | nil => intro acc' _; rfl
          | cons u us ihu =>
              intro acc' hnu
              rw [List.foldl_cons]
              rw [ihu _ (fun v hv => hnu v (List.mem_cons_of_mem u hv))]
              refine cellAt_setCh_frame acc' _ _ _ ?_
              simpa using hnu u (List.mem_cons_self u us)
        rw [hrest ks _ hne]
        rw [cellAt_setCh_hit _ _ _ _ (by rw [hshape.1]; exact hr)
          (by rw [hshape.2]; exact hc)]
      · exact ih _ (sameShape_trans (setCh_sameShape acc _ _ _) hshape)
          hnd.2 hmem'

/-- One projection step of the slot fold. -/
def projStep (m : Asg) (acc : Grid) (s : Slot) : Grid :=
  match alookup m s.id with
  | none => acc
  | some w => if w.isEmpty then acc else writeWord acc s w

theorem project_eq_fold (g : Grid) (m : Asg) :
    project g m = (computeSlots g).foldl (projStep m) g := by
  rw [project]
  congr 1

theorem projStep_sameShape (m : Asg) (acc : Grid) (s : Slot) :
    SameShape (projStep m acc s) acc := by
  rw [projStep]
  rcases alookup m s.id with _ | w
  · exact ⟨rfl, fun r => rfl⟩
  · by_cases hw : w.isEmpty
    · simp only [if_pos hw]
      exact ⟨rfl, fun r => rfl⟩
    · simp only [if_neg hw]
      exact writeWord_sameShape acc s w

theorem foldProj_sameShape (m : Asg) :
    ∀ (sl : List Slot) (acc : Grid), SameShape (sl.foldl (projStep m) acc)
      acc := by
  intro sl
  induction sl with
  | nil => exact fun acc => ⟨rfl, fun r => rfl⟩
  | cons s sl ih =>
      intro acc
      rw [List.foldl_cons]
      exact sameShape_trans (ih _) (projStep_sameShape m acc s)

theorem projStep_blocked (m : Asg) (acc : Grid) (s : Slot) (r c : Nat) :
    (cellAt (projStep m acc s) r c).blocked = (cellAt acc r c).blocked := by
  rw [projStep]
  rcases alookup m s.id with _ | w
  · rfl
  · by_cases hw : w.isEmpty
    · simp only [if_pos hw]
    · simp only [if_neg hw]
      exact writeWord_blocked acc s w r c

theorem foldProj_blocked (m : Asg) :
    ∀ (sl : List Slot) (acc : Grid) (r c : Nat),
      (cellAt (sl.foldl (projStep m) acc) r c).blocked =
        (cellAt acc r c).blocked := by
  intro sl
  induction sl with
  | nil => intro acc r c; rfl
  | cons s sl ih =>
      intro acc r c
      rw [List.foldl_cons, ih]
      exact projStep_blocked m acc s r c

theorem foldProj_frame (m : Asg) {r c : Nat} :
    ∀ (sl : List Slot) (acc : Grid),
      (∀ s ∈ sl, ∀ k < s.len, coordOf s k ≠ (r, c)) →
      cellAt (sl.foldl (projStep m) acc) r c = cellAt acc r c := by
  intro sl
  induction sl with
  | nil => intro acc _; rfl
  | cons s sl ih =>
      intro acc hnc
      rw [List.foldl_cons]
      rw [ih _ (fun t ht => hnc t (List.mem_cons_of_mem s ht))]
      rw [projStep]
      rcases alookup m s.id with _ | w
      · rfl
      · by_cases hw : w.isEmpty
        · simp only [if_pos hw]
        · simp only [if_neg hw]
          exact writeWord_frame acc s w (hnc s (List.mem_cons_self s sl))

theorem row_len_of_rect {g : Grid} (hrect : Rectangular g) {r : Nat}
    (hr : r < g.length) : (g.getD r []).length = gridCols g := by
  have h1 : g.getD r [] = g[r] :=
    getD_eq_some (List.getElem?_eq_getElem hr) _
  rw [h1]
  exact hrect _ (List.getElem_mem hr)

/-- Every covered coordinate of a slot is in bounds (rectangular grid). -/
theorem coord_bounds {g : Grid} (hrect : Rectangular g) {s : Slot}
    (hs : s ∈ computeSlots g) {k : Nat} (hk : k < s.len) :
    (coordOf s k).1 < g.length ∧
      (coordOf s k).2 < (g.getD (coordOf s k).1 []).length := by
  rcases computeSlots_spec_of_mem hs with ⟨hdir, hspec⟩ | ⟨hdir, hspec⟩
  · simp only [coordOf, hdir]
    have hr : s.r < g.length := hspec.2.1
    refine ⟨hr, ?_⟩
    rw [row_len_of_rect hrect hr]
    have := hspec.2.2.1
    omega
  · simp only [coordOf, hdir]
    have hr : s.r + k < g.length := by
      have := hspec.2.2.1
      omega
    refine ⟨hr, ?_⟩
    rw [row_len_of_rect hrect hr]
    exact hspec.2.1

/-- Two slots of a valid mapping agree where they share a cell. -/
theorem agree_at_shared {g : Grid} {wl : List Word} {m : Asg}
    (hvm : ValidMapping g wl m) {s t : Slot}
    (hs : s ∈ computeSlots g) (ht : t ∈ computeSlots g)
    {k kt : Nat} (hk : k < s.len) (hkt : kt < t.len)
    (hco : coordOf t kt = coordOf s k)
    {w wt : Word} (hw : alookup m s.id = some w)
    (hwt : alookup m t.id = some wt) :
    wt[kt]? = w[k]? := by
  by_cases hst : t = s
  · subst hst
    have hkk : kt = k := coordOf_inj t hco
    subst hkk
    rw [hwt] at hw
    rw [Option.some_inj.mp hw]
  · obtain ⟨cr, hcr, hor⟩ :=
      buildCrosses_exists ht hs hst hkt hk hco rfl
    obtain ⟨wa, wb, ch, hwa, hwb, ha, hb⟩ := hvm.2.2 cr hcr
    rcases hor with rfl | rfl
    · have h1 : wa = wt := Option.some_inj.mp (hwa.symm.trans hwt)
      have h2 : wb = w := Option.some_inj.mp (hwb.symm.trans hw)
      rw [← h1, ← h2, ha, hb]
    · have h1 : wa = w := Option.some_inj.mp (hwa.symm.trans hw)
      have h2 : wb = wt := Option.some_inj.mp (hwb.symm.trans hwt)
      rw [← h1, ← h2, ha, hb]

/-- Once a covered cell holds the right letter, the remaining slot writes
of the projection keep it (they write the same letter there). -/
theorem foldProj_preserve {g : Grid} {wl : List Word} {m : Asg}
    (hrect : Rectangular g) (hvm : ValidMapping g wl m) {s : Slot}
    (hs : s ∈ computeSlots g) {k : Nat} (hk : k < s.len) {w : Word}
    (hw : alookup m s.id = some w) :
    ∀ (sl : List Slot) (acc : Grid),
      (∀ t ∈ sl, t ∈ computeSlots g) →
      SameShape acc g →
      (cellAt acc (coordOf s k).1 (coordOf s k).2).ch = w[k]? →
      (cellAt (sl.foldl (projStep m) acc) (coordOf s k).1
        (coordOf s k).2).ch = w[k]? := by
  have hb := coord_bounds hrect hs hk
  intro sl
  induction sl with
  | nil => intro acc _ _ hval; exact hval
  | cons t sl ih =>
      intro acc hmemg hshape hval
      rw [List.foldl_cons]
      refine ih _ (fun u hu => hmemg u (List.mem_cons_of_mem t hu))
        (sameShape_trans (projStep_sameShape m acc t) hshape) ?_
      rw [projStep]
      rcases hlt : alookup m t.id with _ | wt
      · exact hval
      · by_cases hwe : wt.isEmpty
        · simp only [if_pos hwe]
          exact hval
        · simp only [if_neg hwe]
          by_cases hcov : ∃ kt, kt < t.len ∧ coordOf t kt = coordOf s k
          · obtain ⟨kt, hkt, hco⟩ := hcov
            have hhit := writeWord_hit g acc t wt hkt hshape
              (by rw [hco]; exact hb.1) (by rw [hco]; exact hb.2)
            rw [hco] at hhit
            rw [hhit]
            exact agree_at_shared hvm hs
              (hmemg t (List.mem_cons_self t sl)) hk hkt hco hw hlt
          · push_neg at hcov
            rw [writeWord_frame acc t wt ?_]
            · exact hval
            · intro kt hkt
              simpa using hcov kt hkt

/-- A slot's word is what the projection leaves on each of its cells. -/
theorem project_hit {g : Grid} {wl : List Word} {m : Asg}
    (hrect : Rectangular g) (hvm : ValidMapping g wl m)
    {s : Slot} (hs : s ∈ computeSlots g) {k : Nat} (hk : k < s.len)
    {w : Word} (hw : alookup m s.id = some w) :
    (cellAt (project g m) (coordOf s k).1 (coordOf s k).2).ch = w[k]? := by
  obtain ⟨pre, post, hsplit⟩ := List.append_of_mem hs
  have hb := coord_bounds hrect hs hk
  have hwlen : w.length = s.len := by
    obtain ⟨w', hw', _, hlen', _⟩ := hvm.1 s hs
    rw [Option.some_inj.mp (hw.symm.trans hw')]
    exact hlen'
  have hlen2 : 2 ≤ s.len := computeSlots_len_ge_two hs
  have hwe : w.isEmpty = false := by
    rcases w with _ | ⟨c, cs⟩
    · exfalso
      simp at hwlen
      omega
    · rfl
  rw [project_eq_fold, hsplit, List.foldl_append, List.foldl_cons]
  have hshape0 : SameShape (pre.foldl (projStep m) g) g :=
    foldProj_sameShape m pre g
  have hstep : projStep m (pre.foldl (projStep m) g) s =
      writeWord (pre.foldl (projStep m) g) s w := by
    rw [projStep, hw]
    simp [hwe]
  rw [hstep]
  refine foldProj_preserve hrect hvm hs hk hw post _ ?_ ?_ ?_
  · intro t ht
    rw [hsplit]
    exact List.mem_append.mpr (Or.inr (List.mem_cons_of_mem s ht))
  · exact sameShape_trans (writeWord_sameShape _ s w) hshape0
  · exact writeWord_hit g _ s w hk hshape0 hb.1 hb.2

theorem project_sameShape (g : Grid) (m : Asg) :
    SameShape (project g m) g := by
  rw [project_eq_fold]
  exact foldProj_sameShape m _ g

theorem project_blocked (g : Grid) (m : Asg) (r c : Nat) :
    (cellAt (project g m) r c).blocked = (cellAt g r c).blocked := by
  rw [project_eq_fold]
  exact foldProj_blocked m _ g r c

theorem project_frame (g : Grid) (m : Asg) {r c : Nat}
    (h : ∀ s ∈ computeSlots g, ¬ covers s (r, c)) :
    cellAt (project g m) r c = cellAt g r c := by
  rw [project_eq_fold]
  refine foldProj_frame m _ g ?_
  intro s hs k hk hco
  exact h s hs ⟨k, hk, hco⟩

/-! ### The word normalization pipeline -/

theorem isWsChar_of_upperAlpha {c : Char} (h : isUpperAlpha c = true) :
    isWsChar c = false := by
  have h' := of_decide_eq_true h
  rw [isWsChar, decide_eq_false_iff_not]
  rintro (rfl | rfl | rfl | rfl | rfl | rfl) <;> exact absurd h' (by decide)

theorem dropWhile_ws_eq_self {l : List Char}
    (h : ∀ c ∈ l, isWsChar c = false) : l.dropWhile isWsChar = l := by
  rcases l with _ | ⟨c, cs⟩
  · rfl
  · rw [List.dropWhile_cons, h c (List.mem_cons_self c cs)]
    simp

theorem trimChars_eq_self {w : Word} (h : ∀ c ∈ w, isWsChar c = false) :
    trimChars w = w := by
  rw [trimChars, dropWhile_ws_eq_self h,
    dropWhile_ws_eq_self (fun c hc => h c (List.mem_reverse.mp hc))]
  exact List.reverse_reverse w

theorem mem_stripUpper_upperAlpha {w : Word} {c : Char}
    (h : c ∈ stripUpper w) : isUpperAlpha c = true :=
  (List.mem_filter.mp h).2

/-- The final `.trim()` of the pipeline is redundant: after stripping every
character outside `A-Z` there is no whitespace left to trim. -/
theorem normalizeWord_eq_stripUpper (w : Word) :
    normalizeWord w = stripUpper w := by
  rw [normalizeWord]
  exact trimChars_eq_self
    (fun c hc => isWsChar_of_upperAlpha (mem_stripUpper_upperAlpha hc))

theorem wordsOf_eq (raw : List Word) :
    wordsOf raw = (raw.map stripUpper).filter (fun w => 2 ≤ w.length) := by
  rw [wordsOf]
  congr 1
  exact List.map_congr_left (fun w _ => normalizeWord_eq_stripUpper w)

theorem mem_wordsOf {raw : List Word} {w : Word} :
    w ∈ wordsOf raw ↔
      (∃ v ∈ raw, w = stripUpper v) ∧ 2 ≤ w.length := by
  rw [wordsOf_eq]
  constructor
  · intro h
    obtain ⟨h1, h2⟩ := List.mem_filter.mp h
    obtain ⟨v, hv, hw⟩ := List.mem_map.mp h1
    exact ⟨⟨v, hv, hw.symm⟩, of_decide_eq_true h2⟩
  · rintro ⟨⟨v, hv, hw⟩, hlen⟩
    exact List.mem_filter.mpr
      ⟨List.mem_map.mpr ⟨v, hv, hw.symm⟩, decide_eq_true hlen⟩

theorem wordsOf_chars {raw : List Word} {w : Word} (h : w ∈ wordsOf raw) :
    ∀ c ∈ w, isUpperAlpha c = true := by
  obtain ⟨⟨v, _, rfl⟩, _⟩ := mem_wordsOf.mp h
  intro c hc
  exact mem_stripUpper_upperAlpha hc

/-! ### List position and slot id -/

/-- Later slots in the discovery list carry strictly larger ids. -/
theorem computeSlots_split_id {g : Grid} {l1 l2 : List Slot} {s : Slot}
    (h : computeSlots g = l1 ++ s :: l2) : ∀ t ∈ l2, s.id < t.id := by
  have hm := computeSlots_map_id g
  rw [h] at hm
  have hp : ((l1 ++ s :: l2).map Slot.id).Pairwise (· < ·) := by
    rw [hm]
    exact List.pairwise_lt_range _
  rw [List.map_append, List.map_cons, List.pairwise_append] at hp
  intro t ht
  exact (List.pairwise_cons.mp hp.2.1).1 t.id (List.mem_map_of_mem Slot.id ht)

/-! ### The scan reads no column past `g[0].length` -/

theorem gridCols_trunc (g : Grid) :
    gridCols (g.map (fun row => row.take (gridCols g))) = gridCols g := by
  rcases g with _ | ⟨r0, rest⟩
  · rfl
  · simp only [List.map_cons, gridCols, List.headD_cons, List.length_take]
    omega

theorem cellAt_trunc (g : Grid) {r c : Nat} (hc : c < gridCols g) :
    cellAt (g.map (fun row => row.take (gridCols g))) r c = cellAt g r c := by
  have hrow : (g.map (fun row => row.take (gridCols g)))[r]? =
      (g[r]?).map (fun row => row.take (gridCols g)) :=
    List.getElem?_map _ g r
  rcases hg : g[r]? with _ | row
  · rw [cellAt_of_no_row (by rw [hrow, hg]; rfl), cellAt_of_no_row hg]
  · have h1 : (g.map (fun row => row.take (gridCols g)))[r]? =
        some (row.take (gridCols g)) := by
      rw [hrow, hg]
      rfl
    rw [cellAt_of_row h1, cellAt_of_row hg]
    refine getD_congr ?_ _
    rw [List.getElem?_take, if_pos hc]

theorem hline_trunc (g : Grid) (r : Nat) :
    hline (g.map (fun row => row.take (gridCols g))) r = hline g r := by
  rw [hline, hline, gridCols_trunc]
  exact List.map_congr_left
    (fun c hc => cellAt_trunc g (List.mem_range.mp hc))

theorem vline_trunc (g : Grid) {c : Nat} (hc : c < gridCols g) :
    vline (g.map (fun row => row.take (gridCols g))) c = vline g c := by
  rw [vline, vline, List.length_map]
  exact List.map_congr_left (fun r _ => cellAt_trunc g hc)

theorem rawSlots_trunc (g : Grid) :
    rawSlots (g.map (fun row => row.take (gridCols g))) = rawSlots g := by
  rw [rawSlots, rawSlots]
  congr 1
  · rw [hrawOf, hrawOf, List.length_map]
    rw [List.flatMap_def, List.flatMap_def]
    congr 1
    exact List.map_congr_left (fun r _ => by rw [hline_trunc])
  · rw [vrawOf, vrawOf, gridCols_trunc]
    rw [List.flatMap_def, List.flatMap_def]
    congr 1
    exact List.map_congr_left
      (fun c hc => by rw [vline_trunc g (List.mem_range.mp hc)])

theorem computeSlots_trunc (g : Grid) :
    computeSlots g =
      computeSlots (g.map (fun row => row.take (gridCols g))) := by
  rw [computeSlots, computeSlots, rawSlots_trunc]

/-! ### Concrete instances -/

def ob : Cell := ⟨true, none⟩

def op : Cell := ⟨false, none⟩

def wAB : Word := ['A', 'B']

def wCD : Word := ['C', 'D']

def wAC : Word := ['A', 'C']

def wBD : Word := ['B', 'D']

/-- A fully open 2×2 grid: two across slots (ids 0, 1), two down slots
(ids 2, 3), four crossings. -/
def gA : Grid := [[op, op], [op, op]]

def wlA : List Word := [wAB, wCD, wAC, wBD]

/-- The mapping `solveJS` finds on `gA` with `wlA` (the word square
AB / CD). -/
def mA : Asg := [(3, wBD), (1, wCD), (2, wAC), (0, wAB)]

/-- One across slot; the empty word list leaves it unsatisfiable. -/
def gU : Grid := [[op, op]]

/-- A single open cell: no run of length ≥ 2, so no slots. -/
def gN : Grid := [[op]]

/-- A non-rectangular grid: `g[0].length = 1`, but row 1 has two cells
(its second cell lies beyond every scanned column). -/
def gBad : Grid := [[ob], [op, op]]

/-! ### The claims -/

/-- Claim C1: for every grid and word list, if the native solver `solveJS`
returns a mapping, then the mapping assigns exactly one word to every
extracted slot, each assigned word's length equals its slot's length and
agrees with every pre-filled letter of the slot, all assigned words are
pairwise distinct, and for every crossing constraint the two assigned words
have equal characters at the constrained offsets (`ValidMapping`). -/
theorem c1_solveJS_sound_valid (g : Grid) (wl : List Word) (m : Asg)
    (h : solveJS g wl = some m) : ValidMapping g wl m :=
  solveJS_sound h

theorem c1_witness_gA : ValidMapping gA wlA mA :=
  c1_solveJS_sound_valid gA wlA mA rfl

/-- Claim C2: for every grid with at least one extracted slot and every
word list, `solveJS` returns `none` exactly when no assignment satisfies
all length, pre-filled-letter, crossing and distinctness constraints
(`IsSolution`); in particular it returns a mapping whenever a solution
exists. -/
theorem c2_solveJS_none_iff_unsat (g : Grid) (wl : List Word)
    (h : computeSlots g ≠ []) :
    solveJS g wl = none ↔ ¬ ∃ σ : Nat → Word, IsSolution g wl σ :=
  solveJS_none_iff h

theorem c2_witness_gU :
    solveJS gU [] = none ↔ ¬ ∃ σ : Nat → Word, IsSolution gU [] σ :=
  c2_solveJS_none_iff_unsat gU [] (by decide)

/-- Claim C3: `computeSlots` returns exactly the maximal open runs of
length ≥ 2 (`specHRun` / `specVRun`, which include maximality and rule out
runs of length 0 or 1): every returned slot is such a run, every such run
is returned, ids are `0, 1, 2, ...` in list order, and the list is all
horizontal slots in row-major order followed by all vertical slots in
column-major order. -/
theorem c3_computeSlots_runs_order_ids (g : Grid) :
    (∀ s ∈ computeSlots g,
      (s.dir = Dir.H ∧ specHRun g s.r s.c s.len) ∨
      (s.dir = Dir.V ∧ specVRun g s.r s.c s.len)) ∧
    (∀ r c n, specHRun g r c n →
      ∃ i, (⟨i, r, c, n, Dir.H⟩ : Slot) ∈ computeSlots g) ∧
    (∀ r c n, specVRun g r c n →
      ∃ i, (⟨i, r, c, n, Dir.V⟩ : Slot) ∈ computeSlots g) ∧
    (computeSlots g).map Slot.id = List.range (computeSlots g).length ∧
    ∃ hs vs, computeSlots g = hs ++ vs ∧
      (∀ s ∈ hs, s.dir = Dir.H) ∧ (∀ s ∈ vs, s.dir = Dir.V) ∧
      hs.Pairwise hlex ∧ vs.Pairwise vlex :=
  ⟨fun _ h => computeSlots_spec_of_mem h,
   fun _ _ _ h => specHRun_mem_computeSlots h,
   fun _ _ _ h => specVRun_mem_computeSlots h,
   computeSlots_map_id g,
   computeSlots_split g⟩

/-- Claim C4: every emitted crossing constraint joins two distinct slots at
a shared coordinate, recording each slot's offset at that coordinate; every
unordered pair of distinct slots sharing a coordinate yields a constraint;
and there is exactly one constraint per unordered id pair (so a coordinate
covered by fewer than two slots contributes none). -/
theorem c4_buildCrosses_pairs (g : Grid) :
    (∀ cr ∈ buildCrosses (computeSlots g),
      ∃ sa sb, sa ∈ computeSlots g ∧ sb ∈ computeSlots g ∧
        sa.id = cr.a ∧ sb.id = cr.b ∧ sa ≠ sb ∧
        cr.ia < sa.len ∧ cr.ib < sb.len ∧
        coordOf sa cr.ia = coordOf sb cr.ib) ∧
    (∀ sa sb, sa ∈ computeSlots g → sb ∈ computeSlots g → sa ≠ sb →
      ∀ ka kb, ka < sa.len → kb < sb.len →
        coordOf sa ka = coordOf sb kb →
        ∃ cr ∈ buildCrosses (computeSlots g),
          cr = ⟨sa.id, ka, sb.id, kb⟩ ∨ cr = ⟨sb.id, kb, sa.id, ka⟩) ∧
    (∀ cr cr', cr ∈ buildCrosses (computeSlots g) →
      cr' ∈ buildCrosses (computeSlots g) →
      ((cr.a = cr'.a ∧ cr.b = cr'.b) ∨ (cr.a = cr'.b ∧ cr.b = cr'.a)) →
      cr = cr') :=
  ⟨fun _ h => buildCrosses_shape h,
   fun _ _ hsa hsb hne _ _ hka hkb hco =>
     buildCrosses_exists hsa hsb hne hka hkb hco rfl,
   fun _ _ h h' hids => buildCrosses_unique h h' hids⟩

/-- Claim C5 (amended): the dispatch `solveFor` uses the native engine only
when the declarative engine is unavailable.  When the engine is available,
a missing answer and an internal query error both come back as `none`
(no fallback: an engine failure is indistinguishable from no solution),
and a consult failure escapes as an exception to the caller. -/
theorem c5_solveFor_dispatch (g : Grid) (wl : List Word) :
    (∀ eng, computeSlots g = [] →
      solveFor eng g wl = SolveOutcome.ok none) ∧
    solveFor EngineStatus.unavailable g wl =
      SolveOutcome.ok (solveJS g wl) ∧
    solveFor (EngineStatus.available EngineAnswer.queryError) g wl =
      SolveOutcome.ok none ∧
    solveFor (EngineStatus.available EngineAnswer.noAnswer) g wl =
      SolveOutcome.ok none ∧
    (computeSlots g ≠ [] →
      solveFor (EngineStatus.available EngineAnswer.consultError) g wl =
        SolveOutcome.threw ∧
      ∀ m, solveFor (EngineStatus.available (EngineAnswer.answer m)) g wl =
        SolveOutcome.ok (some m)) := by
  by_cases hz : computeSlots g = []
  · refine ⟨fun eng _ => by rw [solveFor.eq_def, if_pos hz], ?_, ?_, ?_,
      fun h => absurd hz h⟩
    · rw [solveFor, if_pos hz, solveJS]
      simp [hz]
    · rw [solveFor, if_pos hz]
    · rw [solveFor, if_pos hz]
  · refine ⟨fun eng h => absurd h hz, ?_, ?_, ?_, fun _ => ⟨?_, fun m => ?_⟩⟩
    all_goals rw [solveFor, if_neg hz]

theorem c5_cex_no_fallback_on_failure :
    computeSlots gA ≠ [] ∧
    solveJS gA wlA = some mA ∧
    solveFor (EngineStatus.available EngineAnswer.queryError) gA wlA =
      SolveOutcome.ok none ∧
    solveFor (EngineStatus.available EngineAnswer.queryError) gA wlA ≠
      SolveOutcome.ok (solveJS gA wlA) ∧
    solveFor (EngineStatus.available EngineAnswer.consultError) gA wlA =
      SolveOutcome.threw := by
  decide

/-- Claim C6 (amended): no validation happens.  The scan reads only columns
`< g[0].length`, so any grid whose rows are at least that wide — including
non-rectangular ones with longer rows — is processed exactly as its
truncation to `g[0].length` columns; nothing is rejected and no input
error is signalled.  (Rows shorter than `g[0].length` would make the JS
scan read `undefined` and throw; the width hypothesis keeps the model to
the reads the source actually performs.) -/
theorem c6_scan_truncates (g : Grid)
    (_hwide : ∀ row ∈ g, gridCols g ≤ row.length) :
    computeSlots g =
      computeSlots (g.map (fun row => row.take (gridCols g))) :=
  computeSlots_trunc g

theorem c6_witness_gBad :
    computeSlots gBad =
      computeSlots (gBad.map (fun row => row.take (gridCols gBad))) :=
  c6_scan_truncates gBad (by decide)

theorem c6_cex_silent_none :
    ¬ Rectangular gBad ∧ computeSlots gBad = [] ∧
    solveJS gBad wlA = none ∧
    solveFor EngineStatus.unavailable gBad wlA = SolveOutcome.ok none := by
  refine ⟨by decide, by decide, by decide, by decide⟩

/-- Claim C7: a grid with zero extracted slots makes both the native solver
and the dispatch return `none`, for every word list and engine state; no
error is raised. -/
theorem c7_zero_slots_none (g : Grid) (wl : List Word)
    (eng : EngineStatus) (h : computeSlots g = []) :
    solveJS g wl = none ∧ solveFor eng g wl = SolveOutcome.ok none := by
  constructor
  · rw [solveJS]
    simp [h]
  · rw [solveFor.eq_def, if_pos h]

theorem c7_witness_gN :
    solveJS gN wlA = none ∧
    solveFor EngineStatus.unavailable gN wlA = SolveOutcome.ok none :=
  c7_zero_slots_none gN wlA EngineStatus.unavailable (by decide)

/-- Claim C8: on the slot list of a grid, `pickNext` signals success
(`none`) exactly when every slot is assigned; a first unassigned slot with
empty domain is returned immediately, whatever comes after it; and when no
unassigned slot has an empty domain, the returned slot is unassigned with
a domain of minimum size among unassigned slots, ties broken by lowest
slot id. -/
theorem c8_pickNext_mrv (g : Grid) (wl : List Word) (crosses : List Cross)
    (asg : Asg) (used : List Word) :
    (pickNext g wl crosses (computeSlots g) asg used = none ↔
      ∀ t ∈ computeSlots g, assigned asg t.id = true) ∧
    (∀ l1 s l2, computeSlots g = l1 ++ s :: l2 →
      assigned asg s.id = false →
      (domainFor g wl crosses asg used s).length = 0 →
      (∀ t ∈ l1, assigned asg t.id = false →
        (domainFor g wl crosses asg used t).length ≠ 0) →
      pickNext g wl crosses (computeSlots g) asg used = some s) ∧
    ((∀ t ∈ computeSlots g, assigned asg t.id = false →
        (domainFor g wl crosses asg used t).length ≠ 0) →
      ∀ s, pickNext g wl crosses (computeSlots g) asg used = some s →
        s ∈ computeSlots g ∧ assigned asg s.id = false ∧
        (∀ t ∈ computeSlots g, assigned asg t.id = false →
          (domainFor g wl crosses asg used s).length ≤
            (domainFor g wl crosses asg used t).length) ∧
        (∀ t ∈ computeSlots g, assigned asg t.id = false →
          (domainFor g wl crosses asg used t).length =
            (domainFor g wl crosses asg used s).length →
          s.id ≤ t.id)) := by
  refine ⟨pickNext_none_iff g wl crosses (computeSlots g) asg used,
    ?_, ?_⟩
  · intro l1 s l2 heq hs hz hl1
    exact pickNext_first_empty heq hs hz hl1
  · intro hno s hs
    obtain ⟨hmem, hunas, hmin, l1, l2, hsplit, hstrict⟩ :=
      pickNext_min hno hs
    refine ⟨hmem, hunas, hmin, ?_⟩
    intro t ht htun hteq
    rcases List.mem_append.mp (hsplit ▸ ht) with ht1 | ht2
    · have := hstrict t ht1 htun
      omega
    · rcases List.mem_cons.mp ht2 with rfl | ht3
      · exact Nat.le_refl _
      · exact Nat.le_of_lt (computeSlots_split_id hsplit t ht3)

/-- Claim C9: the word pipeline uppercases, strips every character outside
`A-Z` and drops entries shorter than 2 (the final trim is redundant, as
`wordsOf raw = (raw.map stripUpper).filter ...` shows); `byLen` groups the
result by exact length, each bucket keeping the input order and duplicate
spellings (it equals the order- and multiplicity-preserving `filter`). -/
theorem c9_words_pipeline (raw wl : List Word) (L : Nat) :
    getByLen (buildByLen wl) L = wl.filter (fun w => w.length = L) ∧
    wordsOf raw = (raw.map stripUpper).filter (fun w => 2 ≤ w.length) ∧
    ∀ w ∈ wordsOf raw, 2 ≤ w.length ∧ ∀ c ∈ w, isUpperAlpha c = true :=
  ⟨getByLen_buildByLen wl L, wordsOf_eq raw,
   fun _ hw => ⟨(mem_wordsOf.mp hw).2, wordsOf_chars hw⟩⟩

/-- Claim C10: projecting a valid mapping onto a rectangular grid keeps
the dimensions, keeps every blocked flag, leaves every cell not covered by
a slot unchanged, and writes on each covered cell exactly the assigned
word's character at the covering offset.  (The source projects onto a
cell-by-cell copy, so the input grid itself is untouched; the embedding is
pure and `project` returns the filled copy.) -/
theorem c10_projection_frame (g : Grid) (wl : List Word) (m : Asg)
    (hrect : Rectangular g) (hvm : ValidMapping g wl m) :
    (project g m).length = g.length ∧
    (∀ r, ((project g m).getD r []).length = (g.getD r []).length) ∧
    (∀ r c, (cellAt (project g m) r c).blocked =
      (cellAt g r c).blocked) ∧
    (∀ r c, (∀ s ∈ computeSlots g, ¬ covers s (r, c)) →
      cellAt (project g m) r c = cellAt g r c) ∧
    (∀ s ∈ computeSlots g, ∀ k < s.len, ∀ w, alookup m s.id = some w →
      (cellAt (project g m) (coordOf s k).1 (coordOf s k).2).ch =
        w[k]?) :=
  ⟨(project_sameShape g m).1, (project_sameShape g m).2,
   project_blocked g m,
   fun _ _ h => project_frame g m h,
   fun _ hs _ hk _ hw => project_hit hrect hvm hs hk hw⟩

theorem c10_witness_gA :
    (project gA mA).length = gA.length ∧
    (∀ r, ((project gA mA).getD r []).length = (gA.getD r []).length) ∧
    (∀ r c, (cellAt (project gA mA) r c).blocked =
      (cellAt gA r c).blocked) ∧
    (∀ r c, (∀ s ∈ computeSlots gA, ¬ covers s (r, c)) →
      cellAt (project gA mA) r c = cellAt gA r c) ∧
    (∀ s ∈ computeSlots gA, ∀ k < s.len, ∀ w, alookup mA s.id = some w →
      (cellAt (project gA mA) (coordOf s k).1 (coordOf s k).2).ch =
        w[k]?) :=
  c10_projection_frame gA wlA mA (by decide) (solveJS_sound rfl)

end Crossword
